import Mathlib

/-!
Verification development for the boldkit repository: a shallow embedding of
the BIN-aware species-label curation engine and the deterministic dataset
partitioner, together with theorems checking the specification's claims.

Strings are modelled as lists of characters (`Str`).  Go's `unicode`
character-class tables (`unicode.IsLetter`, `IsUpper`, `IsLower`,
`strings.ToLower`, whitespace) are external data tables; they are modelled
as a parameter `U : UOracle`, instantiated with the ASCII tables
(`asciiU`) for concrete evaluations.
-/

namespace Boldkit

abbrev Str := List Char

/-- The character-class tables consulted by the Go code via the `unicode`
and `strings` packages. -/
structure UOracle where
  isLetter : Char → Bool
  isUpper : Char → Bool
  isLower : Char → Bool
  toLow : Char → Char
  isSpace : Char → Bool

/-- ASCII instantiation of the character tables. -/
def asciiU : UOracle :=
  { isLetter := Char.isAlpha
    isUpper := Char.isUpper
    isLower := Char.isLower
    toLow := Char.toLower
    isSpace := Char.isWhitespace }

/-- Drop characters satisfying `p` from the end of a string. -/
def dropWhileEnd (p : Char → Bool) (s : Str) : Str :=
  (s.reverse.dropWhile p).reverse

/-- `strings.TrimSpace`. -/
def trimSpace (U : UOracle) (s : Str) : Str :=
  dropWhileEnd U.isSpace (s.dropWhile U.isSpace)

/-- `strings.Trim` with a fixed cutset. -/
def trimSet (cutset : List Char) (s : Str) : Str :=
  dropWhileEnd (fun c => cutset.contains c) (s.dropWhile (fun c => cutset.contains c))

/-- Worker for `strings.Fields`: `cur` is the reversed current field. -/
def fieldsAux (U : UOracle) : Str → Str → List Str
  | [], cur => if cur.isEmpty then [] else [cur.reverse]
  | c :: rest, cur =>
      if U.isSpace c then
        if cur.isEmpty then fieldsAux U rest [] else cur.reverse :: fieldsAux U rest []
      else fieldsAux U rest (c :: cur)

/-- `strings.Fields`: split on whitespace runs, dropping empty fields. -/
def fieldsOf (U : UOracle) (s : Str) : List Str := fieldsAux U s []

/-- `strings.Join(parts, " ")`. -/
def joinSpace : List Str → Str
  | [] => []
  | [x] => x
  | x :: xs => x ++ (' ' :: joinSpace xs)

/-- `strings.ToLower`. -/
def toLowerStr (U : UOracle) (s : Str) : Str := s.map U.toLow

/-- `bioscanPlaceholderTokens` from the engine. -/
def bioscanPlaceholderTokens : List Str :=
  [ [], "-".toList, "n/a".toList, "na".toList, "none".toList, "null".toList,
    "unclassified".toList, "undetermined".toList, "unidentified".toList, "unknown".toList ]

/-- `bioscanOpenNomenclatureTokens` from the engine. -/
def bioscanOpenNomenclatureTokens : List Str :=
  [ "aff".toList, "cf".toList, "complex".toList, "group".toList, "indet".toList,
    "nr".toList, "sp".toList, "spp".toList, "species".toList, "undescribed".toList,
    "unknown".toList ]

/-- `bioscanNormalizeLabel`: trim, collapse whitespace, blank out placeholders. -/
def bioscanNormalizeLabel (U : UOracle) (s : Str) : Str :=
  let value := trimSpace U s
  if value.isEmpty then [] else
  let parts := fieldsOf U value
  if parts.isEmpty then [] else
  let joined := joinSpace parts
  if bioscanPlaceholderTokens.contains (toLowerStr U joined) then [] else joined

/-- The punctuation cutset of `bioscanNormalizeToken`. -/
def punctChars : List Char := ".,;:()[]{}".toList

/-- `bioscanNormalizeToken`. -/
def bioscanNormalizeToken (U : UOracle) (t : Str) : Str :=
  trimSet punctChars (toLowerStr U (trimSpace U t))

/-- `bioscanIsOpenMarker`. -/
def bioscanIsOpenMarker (U : UOracle) (t : Str) : Bool :=
  bioscanOpenNomenclatureTokens.contains (bioscanNormalizeToken U t)

/-- `bioscanIsGenusToken`: first rune an uppercase letter, the rest letters or hyphen. -/
def bioscanIsGenusToken (U : UOracle) (t : Str) : Bool :=
  match trimSpace U t with
  | [] => false
  | c :: rest => U.isLetter c && U.isUpper c && rest.all (fun r => U.isLetter r || r == '-')

/-- `bioscanIsEpithetToken`: nonempty, all runes lowercase or hyphen. -/
def bioscanIsEpithetToken (U : UOracle) (t : Str) : Bool :=
  let t := trimSpace U t
  !t.isEmpty && t.all (fun r => U.isLower r || r == '-')

inductive SpeciesKind
  | emptyK
  | openK
  | resolvedK
deriving DecidableEq, Repr

structure SpeciesInfo where
  kind : SpeciesKind
  normalized : Str := []
  canonical : Str := []
  genus : Str := []
  epithet : Str := []
deriving DecidableEq, Repr

/-- `bioscanParseSpecies`: classify a free-text species label. -/
def bioscanParseSpecies (U : UOracle) (species : Str) : SpeciesInfo :=
  let norm := bioscanNormalizeLabel U species
  if norm.isEmpty then { kind := .emptyK } else
  match fieldsOf U norm with
  | [] => { kind := .openK, normalized := norm }
  | [_] => { kind := .openK, normalized := norm }
  | p0 :: p1 :: rest =>
    if bioscanIsOpenMarker U p0 || bioscanIsOpenMarker U p1 then
      { kind := .openK, normalized := norm }
    else if rest.any (fun p => bioscanIsOpenMarker U p) then
      { kind := .openK, normalized := norm }
    else
      let genus := p0
      let epi := toLowerStr U p1
      if !bioscanIsGenusToken U genus || !bioscanIsEpithetToken U epi then
        { kind := .openK, normalized := norm }
      else
        { kind := .resolvedK, normalized := norm, canonical := genus ++ (' ' :: epi),
          genus := genus, epithet := epi }

/-- `bioscanInferGenus`: a bare genus from a label's head token. -/
def bioscanInferGenus (U : UOracle) (species : Str) : Str :=
  let sp := bioscanNormalizeLabel U species
  if sp.isEmpty then [] else
  match fieldsOf U sp with
  | [] => []
  | head :: _ =>
    if bioscanIsOpenMarker U head then []
    else if bioscanIsGenusToken U head then head
    else []

def spDotSep : Str := " sp. ".toList

/-- `bioscanProvisionalSpecies`: `"Genus sp. <BIN>"`, empty when either input is empty. -/
def bioscanProvisionalSpecies (U : UOracle) (genus binURI : Str) : Str :=
  let g := bioscanNormalizeLabel U genus
  let b := bioscanNormalizeLabel U binURI
  if g.isEmpty || b.isEmpty then [] else g ++ spDotSep ++ b

/-! ### Association lists, modelling Go maps -/

def lookupA {α β : Type} [DecidableEq α] : List (α × β) → α → Option β
  | [], _ => none
  | (k, v) :: rest, a => if a = k then some v else lookupA rest a

def updateA {α β : Type} [DecidableEq α] : List (α × β) → α → β → List (α × β)
  | [], a, b => [(a, b)]
  | (k, v) :: rest, a, b => if a = k then (k, b) :: rest else (k, v) :: updateA rest a b

/-! ### BIN consensus resolver -/

/-- `strings.Compare(a, b) < 0`, byte-lexicographic, modelled on characters. -/
def ltStr : Str → Str → Bool
  | [], [] => false
  | [], _ :: _ => true
  | _ :: _, [] => false
  | a :: as, b :: bs => if a < b then true else if b < a then false else ltStr as bs

/-- `strings.EqualFold`, modelled as equality after lowercasing. -/
def eqFold (U : UOracle) (a b : Str) : Bool :=
  decide (toLowerStr U a = toLowerStr U b)

structure BinRes where
  canonical : Str := []
  accepted : Bool := false
  conflict : Bool := false
deriving DecidableEq, Repr

/-- State of the selection loop in `Resolve`. -/
structure ResolveState where
  best : Str
  bestCount : Int
  second : Int
  total : Int
deriving DecidableEq, Repr

/-- One iteration of the selection loop in `Resolve`. -/
def resolveStep (st : ResolveState) (e : Str × Int) : ResolveState :=
  let total := st.total + e.2
  if e.2 > st.bestCount ∨ (e.2 = st.bestCount ∧ (st.best.isEmpty ∨ ltStr e.1 st.best)) then
    { best := e.1, bestCount := e.2, second := st.bestCount, total := total }
  else if e.2 > st.second then
    { st with second := e.2, total := total }
  else
    { st with total := total }

def resolveLoop (l : List (Str × Int)) : ResolveState :=
  l.foldl resolveStep { best := [], bestCount := -1, second := -1, total := 0 }

/-- Per-BIN part of `Resolve`, on the BIN's per-canonical-species counters. -/
def resolveBySpecies : List (Str × Int) → BinRes
  | [] => {}
  | [(s, _)] => { canonical := s, accepted := true }
  | l =>
    let st := resolveLoop l
    if !st.best.isEmpty ∧ st.bestCount > st.second ∧ st.bestCount * 2 > st.total then
      { canonical := st.best, accepted := true }
    else
      { conflict := true }

/-- The resolver's `counts` field: BIN → canonical species → occurrence count. -/
abbrev BinCounts := List (Str × List (Str × Int))

/-- `bioscanBinSpeciesResolver.Observe`. -/
def resolverObserve (U : UOracle) (counts : BinCounts) (binURI genus species : Str) : BinCounts :=
  let bin := bioscanNormalizeLabel U binURI
  if bin.isEmpty then counts else
  let info := bioscanParseSpecies U species
  if info.kind ≠ .resolvedK ∨ info.canonical.isEmpty then counts else
  let g := bioscanNormalizeLabel U genus
  if !g.isEmpty && !eqFold U g info.genus then counts else
  let bySpecies := (lookupA counts bin).getD []
  let cnt := (lookupA bySpecies info.canonical).getD 0
  updateA counts bin (updateA bySpecies info.canonical (cnt + 1))

/-- `bioscanBinSpeciesResolver.Resolve`. -/
def resolverResolve (U : UOracle) (counts : BinCounts) (binURI : Str) : BinRes :=
  let bin := bioscanNormalizeLabel U binURI
  if bin.isEmpty then {} else
  match lookupA counts bin with
  | none => {}
  | some bySpecies => resolveBySpecies bySpecies

/-! ### Curation rule engine -/

/-- `extractTaxonRecord`.  `class`/`order` are Lean keywords, hence `classF`/`orderF`. -/
structure TaxonRecord where
  processID : Str := []
  binURI : Str := []
  kingdom : Str := []
  phylum : Str := []
  classF : Str := []
  orderF : Str := []
  family : Str := []
  subfamily : Str := []
  tribe : Str := []
  genus : Str := []
  species : Str := []
deriving DecidableEq, Repr

def rulePlaceholderNormalize : Str := "placeholder_normalize".toList
def ruleSubfamilyFill : Str := "subfamily_fill_from_family_tribe".toList
def ruleEpithetOnlyFix : Str := "species_epithet_only_fix".toList
def ruleGenusFromResolved : Str := "genus_from_resolved_species".toList
def ruleGenusInferred : Str := "genus_inferred_from_species".toList
def ruleBinCanonicalAdopt : Str := "bin_canonical_species_adopt".toList
def ruleGenusSpeciesMismatchDemote : Str := "genus_species_mismatch_demote".toList
def ruleOpenToBinProvisional : Str := "open_or_empty_to_bin_provisional".toList
def ruleProvisionalDroppedNoBin : Str := "provisional_dropped_missing_bin".toList

/-- Insert a rule identifier into the per-row rule set (Go set-map semantics). -/
def addRule (rules : List Str) (r : Str) : List Str :=
  if rules.contains r then rules else rules ++ [r]

/-- `canonicalForBin`: the accepted canonical species info for a normalized BIN. -/
def canonicalForBin (U : UOracle) (binCanonical : List (Str × SpeciesInfo)) (binURI : Str) :
    Option SpeciesInfo :=
  let bin := bioscanNormalizeLabel U binURI
  if bin.isEmpty then none else lookupA binCanonical bin

def subfamSuffix : Str := " subfam. incertae sedis".toList

structure CurateResult where
  outRec : TaxonRecord
  rules : List Str
  changed : Bool
deriving DecidableEq, Repr

/-- Stages 1–3 of `Curate`: placeholder normalization of every field, the
subfamily-hole fill, and the epithet-only fix, together with the rule
identifiers these stages record. -/
def curatePre (U : UOracle) (original : TaxonRecord) : TaxonRecord × List Str :=
  let r1 : TaxonRecord :=
    { original with
      kingdom := bioscanNormalizeLabel U original.kingdom
      phylum := bioscanNormalizeLabel U original.phylum
      classF := bioscanNormalizeLabel U original.classF
      orderF := bioscanNormalizeLabel U original.orderF
      family := bioscanNormalizeLabel U original.family
      subfamily := bioscanNormalizeLabel U original.subfamily
      tribe := bioscanNormalizeLabel U original.tribe
      genus := bioscanNormalizeLabel U original.genus
      species := bioscanNormalizeLabel U original.species
      binURI := bioscanNormalizeLabel U original.binURI }
  let rules0 : List Str := if r1 ≠ original then [rulePlaceholderNormalize] else []
  let condSubfam := !r1.family.isEmpty && !r1.tribe.isEmpty && r1.subfamily.isEmpty
  let r2 := if condSubfam then { r1 with subfamily := r1.family ++ subfamSuffix } else r1
  let rules1 := if condSubfam then addRule rules0 ruleSubfamilyFill else rules0
  let condEpithet := !r2.genus.isEmpty && bioscanIsEpithetToken U r2.species
  let r3 := if condEpithet then { r2 with species := r2.genus ++ (' ' :: toLowerStr U r2.species) } else r2
  let rules2 := if condEpithet then addRule rules1 ruleEpithetOnlyFix else rules1
  (r3, rules2)

/-- Tail of the Open/Empty case of the `Curate` switch: BIN adoption when the
(possibly inferred) genus is unset or agrees, otherwise a BIN-provisional
label.  `gPair` carries the genus and the rule set after genus inference. -/
def curateOpenCase (U : UOracle) (binInfoQ : Option SpeciesInfo) (binURI : Str)
    (gPair : Str × List Str) : Str × Str × List Str :=
  match binInfoQ with
  | some binInfo =>
    if gPair.1.isEmpty || eqFold U gPair.1 binInfo.genus then
      (binInfo.genus, binInfo.canonical, addRule gPair.2 ruleBinCanonicalAdopt)
    else
      (gPair.1, bioscanProvisionalSpecies U gPair.1 binURI,
        addRule gPair.2 ruleOpenToBinProvisional)
  | none =>
    (gPair.1, bioscanProvisionalSpecies U gPair.1 binURI,
      addRule gPair.2 ruleOpenToBinProvisional)

/-- The `switch speciesInfo.Kind` of `Curate`, returning the new genus, the
new species and the updated rule set.  The Go `switch` has an unreachable
`default` branch for kind values outside the closed enumeration; the model's
kind type is closed. -/
def curateSwitch (U : UOracle) (binInfoQ : Option SpeciesInfo) (speciesInfo : SpeciesInfo)
    (genus0 binURI : Str) (rules2 : List Str) : Str × Str × List Str :=
  match speciesInfo.kind with
  | .resolvedK =>
    if genus0.isEmpty then
      (speciesInfo.genus, speciesInfo.canonical, addRule rules2 ruleGenusFromResolved)
    else if eqFold U genus0 speciesInfo.genus then
      (speciesInfo.genus, speciesInfo.canonical, rules2)
    else
      match binInfoQ with
      | some binInfo =>
        if eqFold U genus0 binInfo.genus then
          (binInfo.genus, binInfo.canonical, addRule rules2 ruleBinCanonicalAdopt)
        else
          (genus0, bioscanProvisionalSpecies U genus0 binURI,
            addRule rules2 ruleGenusSpeciesMismatchDemote)
      | none =>
        (genus0, bioscanProvisionalSpecies U genus0 binURI,
          addRule rules2 ruleGenusSpeciesMismatchDemote)
  | _ =>
    curateOpenCase U binInfoQ binURI
      (if genus0.isEmpty then
        let gi := bioscanInferGenus U speciesInfo.normalized
        if !gi.isEmpty then (gi, addRule rules2 ruleGenusInferred) else (gi, rules2)
      else (genus0, rules2))

/-- `bioscan5MCurator.Curate`, as a pure function of the BIN decision table and
the incoming record. -/
def curate (U : UOracle) (binCanonical : List (Str × SpeciesInfo)) (original : TaxonRecord) :
    CurateResult :=
  let pre := curatePre U original
  let r3 := pre.1
  let rules2 := pre.2
  let speciesInfo := bioscanParseSpecies U r3.species
  let binInfoQ := canonicalForBin U binCanonical r3.binURI
  let gs := curateSwitch U binInfoQ speciesInfo r3.genus r3.binURI rules2
  let r4 := { r3 with genus := gs.1, species := gs.2.1 }
  let rules3 := gs.2.2
  let rules4 :=
    if (rules3.contains ruleOpenToBinProvisional || rules3.contains ruleGenusSpeciesMismatchDemote)
        && r4.species.isEmpty then
      addRule rules3 ruleProvisionalDroppedNoBin
    else rules3
  { outRec := r4, rules := rules4, changed := decide (r4 ≠ original) }

/-- `bioscanCurationStats`: the per-rule counters plus row counts. -/
structure CurationStats where
  rowsTotal : Nat := 0
  rowsChanged : Nat := 0
  placeholderNormalize : Nat := 0
  subfamilyFilled : Nat := 0
  epithetOnlyFixed : Nat := 0
  genusFromResolved : Nat := 0
  genusInferred : Nat := 0
  binCanonicalAdopted : Nat := 0
  genusSpeciesMismatchDemote : Nat := 0
  openToBinProvisional : Nat := 0
  provisionalDroppedNoBin : Nat := 0
deriving DecidableEq, Repr

/-- One case of `bioscanCurationStats.addRules`. -/
def bumpRule (s : CurationStats) (r : Str) : CurationStats :=
  if r = rulePlaceholderNormalize then { s with placeholderNormalize := s.placeholderNormalize + 1 }
  else if r = ruleSubfamilyFill then { s with subfamilyFilled := s.subfamilyFilled + 1 }
  else if r = ruleEpithetOnlyFix then { s with epithetOnlyFixed := s.epithetOnlyFixed + 1 }
  else if r = ruleGenusFromResolved then { s with genusFromResolved := s.genusFromResolved + 1 }
  else if r = ruleGenusInferred then { s with genusInferred := s.genusInferred + 1 }
  else if r = ruleBinCanonicalAdopt then { s with binCanonicalAdopted := s.binCanonicalAdopted + 1 }
  else if r = ruleGenusSpeciesMismatchDemote then
    { s with genusSpeciesMismatchDemote := s.genusSpeciesMismatchDemote + 1 }
  else if r = ruleOpenToBinProvisional then { s with openToBinProvisional := s.openToBinProvisional + 1 }
  else if r = ruleProvisionalDroppedNoBin then
    { s with provisionalDroppedNoBin := s.provisionalDroppedNoBin + 1 }
  else s

/-- `bioscanCurationStats.addRules`. -/
def addRules (s : CurationStats) (rules : List Str) : CurationStats :=
  rules.foldl bumpRule s

/-- The stats update performed by one `Curate` call around the rule cascade. -/
def curateStats (s : CurationStats) (res : CurateResult) : CurationStats :=
  let s1 := { s with rowsTotal := s.rowsTotal + 1 }
  let s2 := if res.changed then { s1 with rowsChanged := s1.rowsChanged + 1 } else s1
  addRules s2 res.rules

/-- Insertion sort by `ltStr`, modelling `sort.Strings`. -/
def insertSorted (x : Str) : List Str → List Str
  | [] => [x]
  | y :: ys => if ltStr x y then x :: y :: ys else y :: insertSorted x ys

def sortStrs (l : List Str) : List Str := l.foldr insertSorted []

/-- `sortedRuleSet`. -/
def sortedRuleSet (rules : List Str) : List Str := sortStrs rules

/-- `auditField`: tabs, newlines and carriage returns become spaces. -/
def auditField (v : Str) : Str :=
  v.map (fun c => if c = '\t' ∨ c = '\n' ∨ c = '\r' then ' ' else c)

def joinWith (sep : Str) : List Str → Str
  | [] => []
  | [x] => x
  | x :: xs => x ++ sep ++ joinWith sep xs

/-- The tab-joined audit line built by `writeAuditRow`. -/
def auditRow (before afterR : TaxonRecord) (rules : List Str) : Str :=
  joinWith [ '\t' ]
    [ auditField afterR.processID, auditField afterR.binURI, auditField before.genus,
      auditField before.species, auditField before.subfamily, auditField afterR.genus,
      auditField afterR.species, auditField afterR.subfamily,
      joinWith [ ',' ] (sortedRuleSet rules) ]

/-- `writeAuditRow`: emits a line only for changed rows. -/
def writeAuditRow (before afterR : TaxonRecord) (rules : List Str) (changed : Bool) :
    Option Str :=
  if !changed then none else some (auditRow before afterR rules)

/-! ### Barcode partitioner

The `crypto/md5` digest and its first byte (`classHashByte`) are external
pure functions; they are modelled as the parameters `hashFn` and
`labelHash` of `SplitCtx`. -/

/-- An md5 digest, read as a big-endian 128-bit natural number.  Byte-wise
lexicographic comparison of two equal-length digests coincides with numeric
comparison of these values. -/
abbrev Hash := Nat

/-- `lessHash`: byte-lexicographic comparison of fixed-size digests, i.e.
numeric comparison of their big-endian values. -/
def lessHash (a b : Hash) : Bool := decide (a < b)

structure FastaRec where
  pid : Str
  seq : Str
deriving DecidableEq, Repr

/-- Ambient data for one split run: the hash functions, the
processid → label map and the invalid ids from `loadProcessLabelMap`. -/
structure SplitCtx where
  hashFn : Str → Hash
  labelHash : Str → Nat
  labels : List (Str × Str)
  invalid0 : List Str

structure BarcodeGroup where
  label : Str := []
  count : Nat := 0
  conflict : Bool := false
deriving DecidableEq, Repr

structure Pass1State where
  groups : List (Hash × BarcodeGroup) := []
  invalid : List Str := []
  totalRecords : Nat := 0
deriving DecidableEq, Repr

/-- One record of the grouping pass of `buildSplitPlan`: the record counter
always advances; an already-invalidated id is skipped, an unlabeled id is
invalidated, and a labeled record is folded into its sequence-hash group. -/
def pass1Step (ctx : SplitCtx) (st : Pass1State) (r : FastaRec) : Pass1State :=
  if st.invalid.contains r.pid then
    { st with totalRecords := st.totalRecords + 1 }
  else
    match lookupA ctx.labels r.pid with
    | none =>
        { st with invalid := st.invalid ++ [r.pid], totalRecords := st.totalRecords + 1 }
    | some label =>
        let h := ctx.hashFn r.seq
        let g := (lookupA st.groups h).getD {}
        let g1 := if g.count = 0 then { g with label := label }
                  else if g.label ≠ label then { g with conflict := true } else g
        { st with groups := updateA st.groups h { g1 with count := g1.count + 1 },
                  totalRecords := st.totalRecords + 1 }

/-- The grouping pass of `buildSplitPlan` over the record stream. -/
def pass1 (ctx : SplitCtx) (records : List FastaRec) : Pass1State :=
  records.foldl (pass1Step ctx) { invalid := ctx.invalid0 }

structure BarcodeUnit where
  hash : Hash
  count : Nat
deriving DecidableEq, Repr

def conflictedHashes (groups : List (Hash × BarcodeGroup)) : List Hash :=
  (groups.filter (fun g => g.2.conflict)).map (fun g => g.1)

/-- `speciesUnits[label]`: the non-conflicted barcode groups carrying `label`. -/
def unitsFor (groups : List (Hash × BarcodeGroup)) (label : Str) : List BarcodeUnit :=
  ((groups.filter (fun g => !g.2.conflict && decide (g.2.label = label))).map
    (fun g => { hash := g.1, count := g.2.count }))

/-- `speciesCounts[label]`. -/
def totalFor (groups : List (Hash × BarcodeGroup)) (label : Str) : Nat :=
  ((unitsFor groups label).map (fun u => u.count)).sum

/-- The key set of `speciesUnits` (one entry per non-conflicted label). -/
def labelsOf (groups : List (Hash × BarcodeGroup)) : List Str :=
  ((groups.filter (fun g => !g.2.conflict)).map (fun g => g.2.label)).dedup

/-- The unit order used by `assignUnits`: ascending `lessHash`.  `sort.Slice`
with a strict comparator produces a weakly sorted permutation; on the
duplicate-free hash keys of one label it is the unique such permutation. -/
def unitLe (u v : BarcodeUnit) : Prop := u.hash ≤ v.hash

instance : DecidableRel unitLe := fun u v => by
  unfold unitLe; infer_instance

instance : IsTotal BarcodeUnit unitLe :=
  ⟨fun u v => Nat.le_total u.hash v.hash⟩

instance : IsTrans BarcodeUnit unitLe :=
  ⟨fun _ _ _ h h2 => Nat.le_trans h h2⟩

def sortUnits (l : List BarcodeUnit) : List BarcodeUnit :=
  List.insertionSort unitLe l

/-- `ceilDiv` (the Go version guards non-positive operands). -/
def ceilDiv (a b : Nat) : Nat := if b = 0 ∨ a = 0 then 0 else (a + b - 1) / b

/-- The consuming loop of `assignUnits` for one non-negative target:
units are taken while the accumulated occurrence count is below the target. -/
def takeByCount : List BarcodeUnit → Int → List BarcodeUnit × List BarcodeUnit
  | [], _ => ([], [])
  | u :: rest, t =>
      if 0 < t then
        let p := takeByCount rest (t - (u.count : Int))
        (u :: p.1, p.2)
      else ([], u :: rest)

/-- `assignUnits`, returning the per-hash bucket assignments it writes.
A negative target absorbs all remaining units. -/
def assignUnits : List BarcodeUnit → List (Str × Int) → List (Hash × Str)
  | _, [] => []
  | units, (bucket, target) :: rest =>
      if units.isEmpty then [] else
      if target < 0 then units.map (fun u => (u.hash, bucket))
      else
        let p := takeByCount units target
        (p.1.map (fun u => (u.hash, bucket))) ++ assignUnits p.2 rest

def bucketSeenTrain : Str := "seen_train".toList
def bucketSeenVal : Str := "seen_val".toList
def bucketSeenTest : Str := "seen_test".toList
def bucketUnseenTest : Str := "test_unseen".toList
def bucketUnseenVal : Str := "val_unseen".toList
def bucketUnseenKeys : Str := "keys_unseen".toList
def bucketHeldout : Str := "other_heldout".toList
def bucketPretrain : Str := "pretrain".toList

def allBuckets : List Str :=
  [bucketSeenTrain, bucketSeenVal, bucketSeenTest, bucketUnseenTest,
   bucketUnseenVal, bucketUnseenKeys, bucketHeldout, bucketPretrain]

/-- The per-label body of the assignment loop of `buildSplitPlan`. -/
def planForLabel (ctx : SplitCtx) (label : Str) (units : List BarcodeUnit) (total : Nat) :
    List (Hash × Str) :=
  let sorted := sortUnits units
  if total ≥ 8 ∧ units.length ≥ 2 then
    let testTarget := min 25 (ceilDiv (2 * total) 10)
    let valTarget := ceilDiv (total - testTarget) 20
    assignUnits sorted
      [(bucketSeenTest, (testTarget : Int)), (bucketSeenVal, (valTarget : Int)),
       (bucketSeenTrain, -1)]
  else if ctx.labelHash label < 128 then
    let testTarget := min 25 (ceilDiv (2 * total) 10)
    let valTarget := ceilDiv (total - testTarget) 5
    assignUnits sorted
      [(bucketUnseenTest, (testTarget : Int)), (bucketUnseenVal, (valTarget : Int)),
       (bucketUnseenKeys, -1)]
  else
    sorted.map (fun u => (u.hash, bucketHeldout))

/-- The `seqBucket` map of `buildSplitPlan`: per-label assignments collected
over the label set (label iteration order is irrelevant; see
`lookup_buildSeqBucket`). -/
def buildSeqBucket (ctx : SplitCtx) (groups : List (Hash × BarcodeGroup)) : List (Hash × Str) :=
  (labelsOf groups).foldl
    (fun acc label =>
      acc ++ planForLabel ctx label (unitsFor groups label) (totalFor groups label)) []

structure SplitPlanM where
  seqBucket : List (Hash × Str)
  conflicted : List Hash
  invalidIDs : List Str
deriving DecidableEq, Repr

/-- `buildSplitPlan` (plan plus the `total_records` statistic). -/
def buildSplitPlan (ctx : SplitCtx) (records : List FastaRec) : SplitPlanM × Nat :=
  let st := pass1 ctx records
  ({ seqBucket := buildSeqBucket ctx st.groups,
     conflicted := conflictedHashes st.groups,
     invalidIDs := st.invalid }, st.totalRecords)

/-- The bucket chosen for one record by the second pass (`writeSplitFastas`). -/
def pass2Bucket (ctx : SplitCtx) (plan : SplitPlanM) (r : FastaRec) : Str :=
  if plan.invalidIDs.contains r.pid then bucketPretrain else
  match lookupA ctx.labels r.pid with
  | none => bucketPretrain
  | some _ =>
    let h := ctx.hashFn r.seq
    if plan.conflicted.contains h then bucketPretrain else
    match lookupA plan.seqBucket h with
    | some b => b
    | none => bucketPretrain

/-- The sequence of buckets written by `writeSplitFastas`. -/
def pass2Buckets (ctx : SplitCtx) (plan : SplitPlanM) (records : List FastaRec) : List Str :=
  records.map (pass2Bucket ctx plan)

/-- The per-bucket record counter of `writeSplitFastas`. -/
def bucketCount (ctx : SplitCtx) (plan : SplitPlanM) (records : List FastaRec) (b : Str) : Nat :=
  (pass2Buckets ctx plan records).count b

/-- The `seenTrainIDs` set collected by `writeSplitFastas`. -/
def seenTrainIDs (ctx : SplitCtx) (plan : SplitPlanM) (records : List FastaRec) : List Str :=
  (records.filter (fun r => decide (pass2Bucket ctx plan r = bucketSeenTrain))).map
    (fun r => r.pid)

/-! ### Taxonomy pruner -/

/-- The ancestor chain of `cur` (fuel-bounded, without the keep-set early stop):
the ids visited by the walk in `pruneTaxdumpForSeenTrain` on an empty keep-set. -/
def taxChain (nodes : List (Int × Int)) : Nat → Int → List Int
  | 0, _ => []
  | fuel + 1, cur =>
      if cur ≤ 0 then [] else
      cur :: (match lookupA nodes cur with
        | none => []
        | some p => if p = cur ∨ p ≤ 0 then [] else taxChain nodes fuel p)

/-- Whether the walk from `cur` reaches a natural stop (root sentinel, missing
node, or self-parent) within the given fuel, rather than being cut off by the
depth bound. -/
def stopsWithin (nodes : List (Int × Int)) : Nat → Int → Bool
  | 0, _ => false
  | fuel + 1, cur =>
      if cur ≤ 0 then true else
      match lookupA nodes cur with
      | none => true
      | some p => if p = cur ∨ p ≤ 0 then true else stopsWithin nodes fuel p

/-- The keep-set walk of `pruneTaxdumpForSeenTrain` for one start taxid:
bounded depth, early stop on an already-kept id, stop on root sentinel /
self-parent / missing node. -/
def keepWalk (nodes : List (Int × Int)) : Nat → Int → List Int → List Int
  | 0, _, keep => keep
  | fuel + 1, cur, keep =>
      if cur ≤ 0 then keep else
      if keep.contains cur then keep else
      let keep1 := cur :: keep
      match lookupA nodes cur with
      | none => keep1
      | some p => if p = cur ∨ p ≤ 0 then keep1 else keepWalk nodes fuel p keep1

/-- The keep-set accumulation of `pruneTaxdumpForSeenTrain`: errors with the
offending processid when it is absent from the taxid map. -/
def pruneKeep (tmap : List (Str × Int)) (nodes : List (Int × Int)) :
    List Str → List Int → Except Str (List Int)
  | [], keep => .ok keep
  | pid :: rest, keep =>
      match lookupA tmap pid with
      | none => .error pid
      | some taxid => pruneKeep tmap nodes rest (keepWalk nodes 128 taxid keep)

/-- `pruneTaxdumpForSeenTrain` restricted to its keep-set computation
(the guard on an empty seen_train set errors with an empty message). -/
def pruneTaxdumpForSeenTrain (tmap : List (Str × Int)) (nodes : List (Int × Int))
    (pids : List Str) : Except Str (List Int) :=
  if pids.isEmpty then .error [] else pruneKeep tmap nodes pids []

/-! ### Specification-side notions used to state the claims -/

/-- Well-formedness of the character tables that classification idempotence
relies on: `' '` is whitespace, lowercasing fixes `' '`, lowercasing is
idempotent, and lowercasing never produces whitespace from non-whitespace. -/
structure UWF (U : UOracle) : Prop where
  spaceTrue : U.isSpace ' ' = true
  toLowSpace : U.toLow ' ' = ' '
  toLowIdem : ∀ c, U.toLow (U.toLow c) = U.toLow c
  toLowKeepNotSpace : ∀ c, U.isSpace c = false → U.isSpace (U.toLow c) = false

/-- A character-table instantiation whose lowercasing is the identity;
used to exhibit concrete runs of the classifier. -/
def idLowU : UOracle :=
  { isLetter := Char.isAlpha
    isUpper := Char.isUpper
    isLower := Char.isLower
    toLow := fun c => c
    isSpace := fun c => decide (c = ' ') }

/-- Counts column of a per-BIN species table. -/
def countsOf (l : List (Str × Int)) : List Int := l.map (fun e => e.2)

/-- Total observations of a BIN. -/
def totalOf (l : List (Str × Int)) : Int := (countsOf l).sum

/-- Maximum of a list of counts, with the loop's initial value `-1`. -/
def maxIntList (l : List Int) : Int := l.foldr max (-1)

/-- The second-highest count (with multiplicity): the maximum after removing
one occurrence of the maximum. -/
def secondOf (l : List (Str × Int)) : Int :=
  maxIntList ((countsOf l).erase (maxIntList (countsOf l)))

/-- Invariants of a BIN's per-species counter table as built by `Observe`:
positive counts, nonempty canonical keys, no duplicate keys. -/
def SpeciesCountsWF (l : List (Str × Int)) : Prop :=
  (∀ e ∈ l, 1 ≤ e.2 ∧ e.1 ≠ []) ∧ (l.map (fun e => e.1)).Nodup

/-- Invariants of the whole resolver state. -/
def BinCountsWF (counts : BinCounts) : Prop :=
  ∀ p ∈ counts, SpeciesCountsWF p.2

/-- `(s, c)` strictly dominates the BIN table: every other species has a
strictly smaller count. -/
def StrictTop (l : List (Str × Int)) (s : Str) (c : Int) : Prop :=
  (s, c) ∈ l ∧ ∀ e ∈ l, e.1 ≠ s → e.2 < c

/-- A record is processed by the grouping pass (not pre-invalidated and
present in the label map). -/
def validB (ctx : SplitCtx) (r : FastaRec) : Bool :=
  !ctx.invalid0.contains r.pid && (lookupA ctx.labels r.pid).isSome

/-- The barcode class of a digest: the valid records whose sequence hashes
to `h`. -/
def classRecs (ctx : SplitCtx) (records : List FastaRec) (h : Hash) : List FastaRec :=
  records.filter (fun r => validB ctx r && decide (ctx.hashFn r.seq = h))

/-- `A` is the quota prefix taken from `units` for `target`: units are
consumed while the accumulated count is still below the target, and
consumption stops only once the quota is met or the units run out. -/
def TakeSpec (target : Int) (units A B : List BarcodeUnit) : Prop :=
  units = A ++ B ∧
  (∀ A1 u A2, A = A1 ++ u :: A2 → ((A1.map (fun v => v.count)).sum : Int) < target) ∧
  (B ≠ [] → target ≤ ((A.map (fun v => v.count)).sum : Int))

/-- Spec-side quota formulas for a seen label: test = min(25, ceil(2n/10)). -/
def specTestQuota (total : Nat) : Nat := min 25 ((2 * total + 9) / 10)

/-- Spec-side quota formulas for a seen label: val = ceil((n - test)/20). -/
def specValQuota (total : Nat) : Nat := (total - specTestQuota total + 19) / 20

/-! ## Supporting lemmas -/

theorem lookupA_updateA {α β : Type} [DecidableEq α] (l : List (α × β)) (a : α) (b : β)
    (x : α) : lookupA (updateA l a b) x = if x = a then some b else lookupA l x := by
  induction l with
  | nil => simp [updateA, lookupA]
  | cons e rest ih =>
      obtain ⟨k, v⟩ := e
      by_cases hak : a = k
      · subst hak
        by_cases hxa : x = a <;> simp [lookupA, updateA, hxa]
      · simp only [updateA, if_neg hak, lookupA]
        by_cases hxk : x = k
        · subst hxk
          have hxa : ¬ x = a := fun hh => hak hh.symm
          simp [lookupA, hxa]
        · simp [lookupA, hxk, ih]

theorem lookupA_some_mem {α β : Type} [DecidableEq α] (l : List (α × β)) (a : α) (b : β)
    (h : lookupA l a = some b) : (a, b) ∈ l := by
  induction l with
  | nil => simp [lookupA] at h
  | cons e rest ih =>
      obtain ⟨k, v⟩ := e
      by_cases hak : a = k
      · subst hak
        simp [lookupA] at h
        simp [h]
      · simp [lookupA, hak] at h
        exact List.mem_cons_of_mem _ (ih h)

theorem lookupA_isSome_iff {α β : Type} [DecidableEq α] (l : List (α × β)) (a : α) :
    (lookupA l a).isSome = true ↔ ∃ b, (a, b) ∈ l := by
  induction l with
  | nil => simp [lookupA]
  | cons e rest ih =>
      obtain ⟨k, v⟩ := e
      by_cases hak : a = k
      · subst hak
        simp [lookupA]
      · simp only [lookupA, if_neg hak, ih]
        constructor
        · rintro ⟨b, hb⟩
          exact ⟨b, List.mem_cons_of_mem _ hb⟩
        · rintro ⟨b, hb⟩
          rcases List.mem_cons.mp hb with h | h
          · cases h
            exact absurd rfl hak
          · exact ⟨b, h⟩

theorem updateA_keys_sub {α β : Type} [DecidableEq α] (l : List (α × β)) (a : α) (b : β)
    (x : α) (hx : x ∈ (updateA l a b).map Prod.fst) : x = a ∨ x ∈ l.map Prod.fst := by
  induction l with
  | nil =>
      simp [updateA] at hx
      exact Or.inl hx
  | cons e rest ih =>
      obtain ⟨k, v⟩ := e
      by_cases hak : a = k
      · subst hak
        simp [updateA] at hx
        rcases hx with hx | hx
        · exact Or.inl hx
        · exact Or.inr (by simp [hx])
      · simp only [updateA, if_neg hak, List.map_cons, List.mem_cons] at hx
        rcases hx with hx | hx
        · exact Or.inr (by simp [hx])
        · rcases ih hx with hh | hh
          · exact Or.inl hh
          · exact Or.inr (List.mem_cons_of_mem _ hh)

theorem updateA_keys_nodup {α β : Type} [DecidableEq α] (l : List (α × β)) (a : α) (b : β)
    (h : (l.map Prod.fst).Nodup) : ((updateA l a b).map Prod.fst).Nodup := by
  induction l with
  | nil => simp [updateA]
  | cons e rest ih =>
      obtain ⟨k, v⟩ := e
      simp only [List.map_cons, List.nodup_cons] at h
      by_cases hak : a = k
      · subst hak
        simpa [updateA, List.map_cons, List.nodup_cons] using h
      · simp only [updateA, if_neg hak, List.map_cons, List.nodup_cons]
        constructor
        · intro hmem
          rcases updateA_keys_sub rest a b k hmem with hh | hh
          · exact hak hh.symm
          · exact h.1 hh
        · exact ih h.2

theorem mem_addRule (rules : List Str) (r x : Str) :
    x ∈ addRule rules r ↔ x ∈ rules ∨ x = r := by
  unfold addRule
  by_cases h : rules.contains r
  · rw [if_pos h]
    constructor
    · exact fun hx => Or.inl hx
    · rintro (hx | hx)
      · exact hx
      · subst hx
        exact List.elem_iff.mp h
  · rw [if_neg h]
    simp

/-! ## C7: shape checks behind the Open classification -/

/-- C7 (counterexample): the label `"Homo Sapiens"` normalizes to two tokens,
no open-nomenclature marker is among them, the first token is genus-shaped and
the second token fails the epithet shape (it has an uppercase letter) — yet
`bioscanParseSpecies` classifies the label as Resolved, not Open, because the
code applies the epithet check to the lowercased second token. -/
theorem c7_uppercase_epithet_is_resolved :
    (fieldsOf asciiU ( "Homo Sapiens".toList)).length = 2 ∧
    bioscanIsOpenMarker asciiU ( "Homo".toList) = false ∧
    bioscanIsOpenMarker asciiU ( "Sapiens".toList) = false ∧
    bioscanIsGenusToken asciiU ( "Homo".toList) = true ∧
    bioscanIsEpithetToken asciiU ( "Sapiens".toList) = false ∧
    (bioscanParseSpecies asciiU ( "Homo Sapiens".toList)).kind = SpeciesKind.resolvedK ∧
    (bioscanParseSpecies asciiU ( "Homo Sapiens".toList)).canonical =
      "Homo sapiens".toList := by
  decide

/-- C7 (amended): for a species label normalizing to two or more tokens with
no open-nomenclature marker among them, the classifier returns Open exactly
when the first token does not look like a genus or the *lowercased* second
token does not look like an epithet; in particular a second token whose
lowercase form is all letters/hyphen yields Resolved even if it contains
uppercase letters. -/
theorem parse_open_iff_token_shape (U : UOracle) (s p0 p1 : Str) (rest : List Str)
    (hfields : fieldsOf U (bioscanNormalizeLabel U s) = p0 :: p1 :: rest)
    (hm0 : bioscanIsOpenMarker U p0 = false)
    (hm1 : bioscanIsOpenMarker U p1 = false)
    (hrest : ∀ p ∈ rest, bioscanIsOpenMarker U p = false) :
    (bioscanParseSpecies U s).kind = SpeciesKind.openK ↔
      (bioscanIsGenusToken U p0 = false ∨
        bioscanIsEpithetToken U (toLowerStr U p1) = false) := by
  have hne : (bioscanNormalizeLabel U s).isEmpty = false := by
    cases h : bioscanNormalizeLabel U s with
    | nil =>
        rw [h] at hfields
        simp [fieldsOf, fieldsAux] at hfields
    | cons c cs => simp
  have hany : rest.any (fun p => bioscanIsOpenMarker U p) = false :=
    List.any_eq_false.mpr (by
      intro x hx
      simp [hrest x hx])
  cases hg : bioscanIsGenusToken U p0 <;>
    cases he : bioscanIsEpithetToken U (toLowerStr U p1) <;>
      simp [bioscanParseSpecies, hne, hfields, hm0, hm1, hany, hg, he]

/-- Witness for the amended C7 theorem at the label `"Homo Sapiens"`. -/
theorem parse_open_iff_token_shape_witness :
    (bioscanParseSpecies asciiU ( "Homo Sapiens".toList)).kind = SpeciesKind.openK ↔
      (bioscanIsGenusToken asciiU ( "Homo".toList) = false ∨
        bioscanIsEpithetToken asciiU (toLowerStr asciiU ( "Sapiens".toList)) = false) :=
  parse_open_iff_token_shape asciiU ( "Homo Sapiens".toList) ( "Homo".toList)
    ( "Sapiens".toList) [] (by decide) (by decide) (by decide)
    (by intro p hp; cases hp)

/-! ## C10: silent canonicalization path of Curate -/

/-- C10: on a record whose genus matches the classified species genus
case-insensitively but whose species string differs from the canonical form
(uppercase epithet), `Curate` rewrites genus and species to the canonical
form, marks the row changed, records no rule identifier, emits the audit row
with an empty rules column, and increments no rule counter. -/
theorem c10_silent_canonicalization :
    let rec0 : TaxonRecord :=
      { processID := "P1".toList, genus := "Homo".toList, species := "Homo Sapiens".toList }
    let res := curate asciiU [] rec0
    eqFold asciiU rec0.genus (bioscanParseSpecies asciiU rec0.species).genus = true ∧
    rec0.species ≠ (bioscanParseSpecies asciiU rec0.species).canonical ∧
    res.outRec.genus = "Homo".toList ∧
    res.outRec.species = "Homo sapiens".toList ∧
    res.rules = [] ∧
    res.changed = true ∧
    curateStats {} res = { rowsTotal := 1, rowsChanged := 1 } ∧
    writeAuditRow rec0 res.outRec res.rules res.changed =
      some ( "P1\t\tHomo\tHomo Sapiens\t\tHomo\tHomo sapiens\t\t".toList) := by
  decide

/-! ## C9: the dropped-missing-BIN marker -/

theorem mem_if_addRule {c : Prop} [Decidable c] (rs : List Str) (x r : Str)
    (h : r ∈ (if c then addRule rs x else rs)) : r ∈ rs ∨ r = x := by
  split at h
  · exact (mem_addRule rs x r).mp h
  · exact Or.inl h

theorem curatePre_rules_sub (U : UOracle) (o : TaxonRecord) (r : Str)
    (hr : r ∈ (curatePre U o).2) :
    r = rulePlaceholderNormalize ∨ r = ruleSubfamilyFill ∨ r = ruleEpithetOnlyFix := by
  simp only [curatePre] at hr
  rcases mem_if_addRule _ _ _ hr with hr | hr
  · rcases mem_if_addRule _ _ _ hr with hr | hr
    · split at hr
      · rcases List.mem_singleton.mp hr with hh
        exact Or.inl hh
      · cases hr
    · exact Or.inr (Or.inl hr)
  · exact Or.inr (Or.inr hr)

theorem curatePre_binURI (U : UOracle) (o : TaxonRecord) :
    (curatePre U o).1.binURI = bioscanNormalizeLabel U o.binURI := by
  simp only [curatePre]
  split <;> split <;> rfl

theorem curatePre_genus (U : UOracle) (o : TaxonRecord) :
    (curatePre U o).1.genus = bioscanNormalizeLabel U o.genus := by
  simp only [curatePre]
  split <;> split <;> rfl

theorem bioscanNormalizeLabel_nil (U : UOracle) : bioscanNormalizeLabel U [] = [] := rfl

theorem bioscanProvisionalSpecies_nil_bin (U : UOracle) (g : Str) :
    bioscanProvisionalSpecies U g [] = [] := by
  simp [bioscanProvisionalSpecies, bioscanNormalizeLabel_nil]

theorem canonicalForBin_nil (U : UOracle) (bc : List (Str × SpeciesInfo)) :
    canonicalForBin U bc [] = none := rfl

/-- In the branches of `curateOpenCase` that record the provisional rule, the
resulting species is the BIN-provisional label of the resulting genus; the
mismatch-demotion rule is never recorded here. -/
theorem curateOpenCase_provisional (U : UOracle) (binQ : Option SpeciesInfo) (bin : Str)
    (gp : Str × List Str)
    (hn1 : ruleOpenToBinProvisional ∉ gp.2)
    (hn2 : ruleGenusSpeciesMismatchDemote ∉ gp.2)
    (hmem : ruleOpenToBinProvisional ∈ (curateOpenCase U binQ bin gp).2.2 ∨
            ruleGenusSpeciesMismatchDemote ∈ (curateOpenCase U binQ bin gp).2.2) :
    (curateOpenCase U binQ bin gp).2.1 =
      bioscanProvisionalSpecies U (curateOpenCase U binQ bin gp).1 bin ∧
    ruleGenusSpeciesMismatchDemote ∉ (curateOpenCase U binQ bin gp).2.2 ∧
    (curateOpenCase U binQ bin gp).1 = gp.1 := by
  cases binQ with
  | some binInfo =>
      simp only [curateOpenCase] at hmem ⊢
      by_cases hc : (gp.1.isEmpty || eqFold U gp.1 binInfo.genus) = true
      · exfalso
        rw [if_pos hc] at hmem
        rcases hmem with hmem | hmem <;>
          rcases (mem_addRule _ _ _).mp hmem with hh | hh
        · exact hn1 hh
        · revert hh; decide
        · exact hn2 hh
        · revert hh; decide
      · rw [if_neg hc] at hmem ⊢
        refine ⟨by trivial, ?_, by trivial⟩
        intro hmm
        rcases (mem_addRule _ _ _).mp hmm with hh | hh
        · exact hn2 hh
        · revert hh; decide
  | none =>
      simp only [curateOpenCase] at hmem ⊢
      refine ⟨by trivial, ?_, by trivial⟩
      intro hmm
      rcases (mem_addRule _ _ _).mp hmm with hh | hh
      · exact hn2 hh
      · revert hh; decide

/-- In the branches of the kind switch that record the provisional or the
mismatch-demotion rule, the resulting species is the BIN-provisional label of
the resulting genus, and the mismatch branch keeps the incoming genus. -/
theorem curateSwitch_provisional (U : UOracle) (binQ : Option SpeciesInfo)
    (info : SpeciesInfo) (g bin : Str) (rules2 : List Str)
    (hn1 : ruleOpenToBinProvisional ∉ rules2)
    (hn2 : ruleGenusSpeciesMismatchDemote ∉ rules2)
    (hmem : ruleOpenToBinProvisional ∈ (curateSwitch U binQ info g bin rules2).2.2 ∨
            ruleGenusSpeciesMismatchDemote ∈ (curateSwitch U binQ info g bin rules2).2.2) :
    (curateSwitch U binQ info g bin rules2).2.1 =
      bioscanProvisionalSpecies U (curateSwitch U binQ info g bin rules2).1 bin ∧
    (ruleGenusSpeciesMismatchDemote ∈ (curateSwitch U binQ info g bin rules2).2.2 →
      (curateSwitch U binQ info g bin rules2).1 = g) ∧
    (g ≠ [] → (curateSwitch U binQ info g bin rules2).1 = g) := by
  have hopen : ∀ gp : Str × List Str,
      (∀ x, x ∈ gp.2 → x ∈ rules2 ∨ x = ruleGenusInferred) →
      (ruleOpenToBinProvisional ∈ (curateOpenCase U binQ bin gp).2.2 ∨
        ruleGenusSpeciesMismatchDemote ∈ (curateOpenCase U binQ bin gp).2.2) →
      (curateOpenCase U binQ bin gp).2.1 =
        bioscanProvisionalSpecies U (curateOpenCase U binQ bin gp).1 bin ∧
      (ruleGenusSpeciesMismatchDemote ∈ (curateOpenCase U binQ bin gp).2.2 →
        (curateOpenCase U binQ bin gp).1 = g) ∧
      (curateOpenCase U binQ bin gp).1 = gp.1 := by
    intro gp hgp hmm
    have hg1 : ruleOpenToBinProvisional ∉ gp.2 := by
      intro hx
      rcases hgp _ hx with hh | hh
      · exact hn1 hh
      · revert hh; decide
    have hg2 : ruleGenusSpeciesMismatchDemote ∉ gp.2 := by
      intro hx
      rcases hgp _ hx with hh | hh
      · exact hn2 hh
      · revert hh; decide
    obtain ⟨hs, hnm, hgp1⟩ := curateOpenCase_provisional U binQ bin gp hg1 hg2 hmm
    exact ⟨hs, fun hx => absurd hx hnm, hgp1⟩
  cases hk : info.kind with
  | resolvedK =>
      simp only [curateSwitch, hk] at hmem ⊢
      by_cases hg : g.isEmpty = true
      · exfalso
        rw [if_pos hg] at hmem
        rcases hmem with hmem | hmem <;>
          rcases (mem_addRule _ _ _).mp hmem with hh | hh
        · exact hn1 hh
        · revert hh; decide
        · exact hn2 hh
        · revert hh; decide
      · rw [if_neg hg] at hmem ⊢
        by_cases hef : eqFold U g info.genus = true
        · exfalso
          rw [if_pos hef] at hmem
          rcases hmem with hmem | hmem
          · exact hn1 hmem
          · exact hn2 hmem
        · rw [if_neg hef] at hmem ⊢
          cases hb : binQ with
          | some binInfo =>
              simp only [hb] at hmem ⊢
              by_cases hef2 : eqFold U g binInfo.genus = true
              · exfalso
                rw [if_pos hef2] at hmem
                rcases hmem with hmem | hmem <;>
                  rcases (mem_addRule _ _ _).mp hmem with hh | hh
                · exact hn1 hh
                · revert hh; decide
                · exact hn2 hh
                · revert hh; decide
              · rw [if_neg hef2]
                exact ⟨by trivial, fun _ => by trivial, fun _ => by trivial⟩
          | none =>
              simp only [hb] at hmem ⊢
              exact ⟨by trivial, fun _ => by trivial, fun _ => by trivial⟩
  | openK =>
      simp only [curateSwitch, hk] at hmem ⊢
      obtain ⟨hs, himp, hgp1⟩ := hopen _ (by
        intro x hx
        revert hx
        split
        · split
          · intro hx
            exact (mem_addRule _ _ _).mp hx
          · intro hx
            exact Or.inl hx
        · intro hx
          exact Or.inl hx) hmem
      refine ⟨hs, himp, ?_⟩
      intro hg
      rw [hgp1]
      have hif : g.isEmpty = false := by
        cases hgg : g with
        | nil => exact absurd hgg hg
        | cons a as => rfl
      rw [if_neg (by rw [hif]; exact Bool.false_ne_true)]
  | emptyK =>
      simp only [curateSwitch, hk] at hmem ⊢
      obtain ⟨hs, himp, hgp1⟩ := hopen _ (by
        intro x hx
        revert hx
        split
        · split
          · intro hx
            exact (mem_addRule _ _ _).mp hx
          · intro hx
            exact Or.inl hx
        · intro hx
          exact Or.inl hx) hmem
      refine ⟨hs, himp, ?_⟩
      intro hg
      rw [hgp1]
      have hif : g.isEmpty = false := by
        cases hgg : g with
        | nil => exact absurd hgg hg
        | cons a as => rfl
      rw [if_neg (by rw [hif]; exact Bool.false_ne_true)]

theorem bioscanProvisionalSpecies_norm_nil (U : UOracle) (g bin : Str)
    (h : bioscanNormalizeLabel U bin = []) : bioscanProvisionalSpecies U g bin = [] := by
  simp [bioscanProvisionalSpecies, h]

/-- C9: on a record where the provisional-label rule or the mismatch-demotion
rule fired and whose BIN is empty after normalization, the provisional
species builder returns the empty string, `provisional_dropped_missing_bin`
is recorded, and the row keeps its genus (the mismatch branch keeps the
normalized incoming genus) while carrying no species label. -/
theorem c9_dropped_missing_bin (U : UOracle) (binCanonical : List (Str × SpeciesInfo))
    (rec0 : TaxonRecord)
    (hbin : bioscanNormalizeLabel U rec0.binURI = [])
    (hfired : ruleOpenToBinProvisional ∈ (curate U binCanonical rec0).rules ∨
              ruleGenusSpeciesMismatchDemote ∈ (curate U binCanonical rec0).rules) :
    bioscanProvisionalSpecies U (curate U binCanonical rec0).outRec.genus rec0.binURI = [] ∧
    (curate U binCanonical rec0).outRec.species = [] ∧
    ruleProvisionalDroppedNoBin ∈ (curate U binCanonical rec0).rules ∧
    (ruleGenusSpeciesMismatchDemote ∈ (curate U binCanonical rec0).rules →
      (curate U binCanonical rec0).outRec.genus = bioscanNormalizeLabel U rec0.genus) ∧
    (bioscanNormalizeLabel U rec0.genus ≠ [] →
      (curate U binCanonical rec0).outRec.genus = bioscanNormalizeLabel U rec0.genus) := by
  have hprov : bioscanProvisionalSpecies U (curate U binCanonical rec0).outRec.genus
      rec0.binURI = [] := bioscanProvisionalSpecies_norm_nil U _ _ hbin
  refine ⟨hprov, ?_⟩
  simp only [curate] at hfired ⊢
  set r3 := (curatePre U rec0).1 with hr3
  set rules2 := (curatePre U rec0).2 with hrules2
  have hb3 : r3.binURI = [] := by
    rw [hr3, curatePre_binURI]
    exact hbin
  rw [hb3] at hfired ⊢
  rw [canonicalForBin_nil U binCanonical] at hfired ⊢
  have hn1 : ruleOpenToBinProvisional ∉ rules2 := by
    intro hx
    rcases curatePre_rules_sub U rec0 _ hx with h | h | h <;> revert h <;> decide
  have hn2 : ruleGenusSpeciesMismatchDemote ∉ rules2 := by
    intro hx
    rcases curatePre_rules_sub U rec0 _ hx with h | h | h <;> revert h <;> decide
  set SW := curateSwitch U none (bioscanParseSpecies U r3.species) r3.genus [] rules2 with hSWdef
  have hfired3 : ruleOpenToBinProvisional ∈ SW.2.2 ∨ ruleGenusSpeciesMismatchDemote ∈ SW.2.2 := by
    rcases hfired with hf | hf <;>
      rcases mem_if_addRule _ _ _ hf with hh | hh
    · exact Or.inl hh
    · exfalso; revert hh; decide
    · exact Or.inr hh
    · exfalso; revert hh; decide
  obtain ⟨hs, himp, hgen⟩ :=
    curateSwitch_provisional U none (bioscanParseSpecies U r3.species) r3.genus [] rules2
      hn1 hn2 hfired3
  have hsp : SW.2.1 = [] := by
    rw [← hSWdef] at hs
    rw [hs, bioscanProvisionalSpecies_nil_bin]
  have hcond : ((SW.2.2.contains ruleOpenToBinProvisional ||
      SW.2.2.contains ruleGenusSpeciesMismatchDemote) && SW.2.1.isEmpty) = true := by
    have hc1 : (SW.2.2.contains ruleOpenToBinProvisional ||
        SW.2.2.contains ruleGenusSpeciesMismatchDemote) = true := by
      rcases hfired3 with hf | hf
      · have hcc : SW.2.2.contains ruleOpenToBinProvisional = true := List.elem_iff.mpr hf
        rw [hcc]
        rfl
      · have hcc : SW.2.2.contains ruleGenusSpeciesMismatchDemote = true := List.elem_iff.mpr hf
        rw [hcc, Bool.or_true]
    rw [hc1, hsp]
    rfl
  refine ⟨?_, ?_, ?_, ?_⟩
  · exact hsp
  · rw [if_pos hcond]
    exact (mem_addRule _ _ _).mpr (Or.inr rfl)
  · intro hmm
    rw [if_pos hcond] at hmm
    have hmm2 : ruleGenusSpeciesMismatchDemote ∈ SW.2.2 := by
      rcases (mem_addRule _ _ _).mp hmm with hh | hh
      · exact hh
      · exfalso; revert hh; decide
    have hstep := himp (by rw [hSWdef] at hmm2; exact hmm2)
    rw [← hSWdef] at hstep
    rw [hstep, hr3, curatePre_genus]
  · intro hg
    have hg3 : r3.genus ≠ [] := by
      rw [hr3, curatePre_genus]
      exact hg
    have hstep := hgen hg3
    rw [← hSWdef] at hstep
    rw [hstep, hr3, curatePre_genus]

/-- Witness for C9: a genus/species mismatch with no BIN. -/
theorem c9_dropped_missing_bin_witness :
    let rec0 : TaxonRecord := { genus := "Canis".toList, species := "Canis sp.".toList }
    bioscanProvisionalSpecies asciiU (curate asciiU [] rec0).outRec.genus rec0.binURI = [] ∧
    (curate asciiU [] rec0).outRec.species = [] ∧
    ruleProvisionalDroppedNoBin ∈ (curate asciiU [] rec0).rules ∧
    (ruleGenusSpeciesMismatchDemote ∈ (curate asciiU [] rec0).rules →
      (curate asciiU [] rec0).outRec.genus = bioscanNormalizeLabel asciiU rec0.genus) ∧
    (bioscanNormalizeLabel asciiU rec0.genus ≠ [] →
      (curate asciiU [] rec0).outRec.genus = bioscanNormalizeLabel asciiU rec0.genus) :=
  c9_dropped_missing_bin asciiU []
    { genus := "Canis".toList, species := "Canis sp.".toList }
    (by decide) (Or.inl (by decide))

/-! ## C8: idempotence of classification on the canonical form -/

theorem fieldsAux_no_space (U : UOracle) :
    ∀ (s cur : Str), (∀ c ∈ cur, U.isSpace c = false) →
    ∀ f ∈ fieldsAux U s cur, f ≠ [] ∧ ∀ c ∈ f, U.isSpace c = false := by
  intro s
  induction s with
  | nil =>
      intro cur hcur f hf
      simp only [fieldsAux] at hf
      split at hf
      · cases hf
      · rcases List.mem_singleton.mp hf with rfl
        constructor
        · intro hrev
          have : cur = [] := by simpa using congrArg List.reverse hrev
          simp [this] at *
        · intro c hc
          exact hcur c (List.mem_reverse.mp hc)
  | cons c0 rest ih =>
      intro cur hcur f hf
      simp only [fieldsAux] at hf
      by_cases hsp : U.isSpace c0 = true
      · rw [if_pos hsp] at hf
        split at hf
        · exact ih [] (by intro c hc; cases hc) f hf
        · rcases List.mem_cons.mp hf with rfl | hf
          · constructor
            · intro hrev
              have hce : cur = [] := by simpa using congrArg List.reverse hrev
              simp_all
            · intro c hc
              exact hcur c (List.mem_reverse.mp hc)
          · exact ih [] (by intro c hc; cases hc) f hf
      · rw [if_neg hsp] at hf
        refine ih (c0 :: cur) ?_ f hf
        intro c hc
        rcases List.mem_cons.mp hc with rfl | hc
        · exact Bool.not_eq_true _ ▸ (by simpa using hsp)
        · exact hcur c hc

theorem fieldsOf_no_space (U : UOracle) (s : Str) :
    ∀ f ∈ fieldsOf U s, f ≠ [] ∧ ∀ c ∈ f, U.isSpace c = false :=
  fieldsAux_no_space U s [] (by intro c hc; cases hc)

theorem fieldsAux_token (U : UOracle) :
    ∀ (t s cur : Str), (∀ c ∈ t, U.isSpace c = false) →
    fieldsAux U (t ++ s) cur = fieldsAux U s (t.reverse ++ cur) := by
  intro t
  induction t with
  | nil => intro s cur _; simp
  | cons c0 t2 ih =>
      intro s cur ht
      have hc0 : U.isSpace c0 = false := ht c0 (by simp)
      have h1 : fieldsAux U ((c0 :: t2) ++ s) cur = fieldsAux U (t2 ++ s) (c0 :: cur) := by
        show fieldsAux U (c0 :: (t2 ++ s)) cur = _
        simp only [fieldsAux]
        rw [if_neg (by simp [hc0])]
      rw [h1, ih s (c0 :: cur) (fun c hc => ht c (List.mem_cons_of_mem _ hc))]
      simp [List.append_assoc]

theorem head?_get_zero {α : Type} (l : List α) (hl : 0 < l.length) :
    l.head? = some (l.get ⟨0, hl⟩) := by
  cases l with
  | nil => simp at hl
  | cons a t => rfl

theorem fieldsOf_joinSpace (U : UOracle) (hsp : U.isSpace ' ' = true) :
    ∀ (ts : List Str), (∀ f ∈ ts, f ≠ [] ∧ ∀ c ∈ f, U.isSpace c = false) →
    fieldsOf U (joinSpace ts) = ts := by
  intro ts
  induction ts with
  | nil => intro _; rfl
  | cons t rest ih =>
      intro hts
      obtain ⟨htne, htns⟩ := hts t (by simp)
      have hne2 : ¬ ((t.reverse ++ ([] : Str)).isEmpty = true) := by
        rw [List.append_nil]
        intro hx
        exact htne (by simpa using hx)
      cases rest with
      | nil =>
          show fieldsAux U (joinSpace [t]) [] = [t]
          have hj : joinSpace [t] = t ++ [] := by simp [joinSpace]
          rw [hj, fieldsAux_token U t [] [] htns]
          simp only [fieldsAux]
          rw [if_neg hne2]
          simp
      | cons t2 rest2 =>
          show fieldsAux U (joinSpace (t :: t2 :: rest2)) [] = t :: t2 :: rest2
          have hjoin : joinSpace (t :: t2 :: rest2) = t ++ (' ' :: joinSpace (t2 :: rest2)) := rfl
          rw [hjoin, fieldsAux_token U t _ [] htns]
          simp only [fieldsAux]
          rw [if_pos hsp, if_neg hne2]
          have ihh := ih (fun f hf => hts f (List.mem_cons_of_mem _ hf))
          simp only [fieldsOf] at ihh
          rw [ihh]
          simp

theorem trimSpace_eq_self_all (U : UOracle) (s : Str)
    (h : ∀ c ∈ s, U.isSpace c = false) : trimSpace U s = s := by
  unfold trimSpace dropWhileEnd
  have h1 : List.dropWhile U.isSpace s = s :=
    List.dropWhile_eq_self_iff.mpr (by
      intro hl
      have hx := h _ (List.get_mem s 0 hl)
      simpa using hx)
  rw [h1]
  have h2 : List.dropWhile U.isSpace s.reverse = s.reverse :=
    List.dropWhile_eq_self_iff.mpr (by
      intro hl
      have hm : s.reverse.get ⟨0, hl⟩ ∈ s := List.mem_reverse.mp (List.get_mem _ _ _)
      have hx := h _ hm
      simpa using hx)
  rw [h2, List.reverse_reverse]

theorem trimSpace_eq_of_ends (U : UOracle) (s : Str)
    (hh1 : ∀ c, s.head? = some c → U.isSpace c = false)
    (hh2 : ∀ c, s.getLast? = some c → U.isSpace c = false) : trimSpace U s = s := by
  unfold trimSpace dropWhileEnd
  have h1 : List.dropWhile U.isSpace s = s :=
    List.dropWhile_eq_self_iff.mpr (by
      intro hl
      have hx := hh1 _ (head?_get_zero s hl)
      simpa using hx)
  rw [h1]
  have h2 : List.dropWhile U.isSpace s.reverse = s.reverse :=
    List.dropWhile_eq_self_iff.mpr (by
      intro hl
      have hg : s.getLast? = some (s.reverse.get ⟨0, hl⟩) := by
        rw [← List.head?_reverse]
        exact head?_get_zero _ hl
      have hx := hh2 _ hg
      simpa using hx)
  rw [h2, List.reverse_reverse]

theorem parse_eval_resolved (U : UOracle) (s : Str)
    (hne : (bioscanNormalizeLabel U s).isEmpty = false)
    (p0 p1 : Str) (rest : List Str)
    (hfe : fieldsOf U (bioscanNormalizeLabel U s) = p0 :: p1 :: rest)
    (hm0 : bioscanIsOpenMarker U p0 = false) (hm1 : bioscanIsOpenMarker U p1 = false)
    (hrest : ∀ p ∈ rest, bioscanIsOpenMarker U p = false)
    (hg : bioscanIsGenusToken U p0 = true)
    (hep : bioscanIsEpithetToken U (toLowerStr U p1) = true) :
    bioscanParseSpecies U s =
      { kind := .resolvedK, normalized := bioscanNormalizeLabel U s,
        canonical := p0 ++ (' ' :: toLowerStr U p1), genus := p0,
        epithet := toLowerStr U p1 } := by
  have hany : rest.any (fun p => bioscanIsOpenMarker U p) = false :=
    List.any_eq_false.mpr (fun x hx => by simp [hrest x hx])
  simp [bioscanParseSpecies, hne, hfe, hm0, hm1, hany, hg, hep]

theorem parse_resolved_inv (U : UOracle) (s : Str)
    (h : (bioscanParseSpecies U s).kind = SpeciesKind.resolvedK) :
    ∃ p0 p1 rest, (bioscanNormalizeLabel U s).isEmpty = false ∧
      fieldsOf U (bioscanNormalizeLabel U s) = p0 :: p1 :: rest ∧
      bioscanIsOpenMarker U p0 = false ∧ bioscanIsOpenMarker U p1 = false ∧
      (∀ p ∈ rest, bioscanIsOpenMarker U p = false) ∧
      bioscanIsGenusToken U p0 = true ∧
      bioscanIsEpithetToken U (toLowerStr U p1) = true ∧
      (bioscanParseSpecies U s).canonical = p0 ++ (' ' :: toLowerStr U p1) := by
  by_cases hne : (bioscanNormalizeLabel U s).isEmpty = true
  · exfalso
    simp [bioscanParseSpecies, hne] at h
  · have hne2 : (bioscanNormalizeLabel U s).isEmpty = false := by
      cases hb : (bioscanNormalizeLabel U s).isEmpty
      · rfl
      · exact absurd hb hne
    cases hfe : fieldsOf U (bioscanNormalizeLabel U s) with
    | nil =>
        exfalso
        simp [bioscanParseSpecies, hne2, hfe] at h
    | cons p0 tl =>
        cases tl with
        | nil =>
            exfalso
            simp [bioscanParseSpecies, hne2, hfe] at h
        | cons p1 rest =>
            by_cases hm0 : bioscanIsOpenMarker U p0 = true
            · exfalso
              simp [bioscanParseSpecies, hne2, hfe, hm0] at h
            · simp at hm0
              by_cases hm1 : bioscanIsOpenMarker U p1 = true
              · exfalso
                simp [bioscanParseSpecies, hne2, hfe, hm0, hm1] at h
              · simp at hm1
                by_cases hany : rest.any (fun p => bioscanIsOpenMarker U p) = true
                · exfalso
                  simp [bioscanParseSpecies, hne2, hfe, hm0, hm1, hany] at h
                · simp at hany
                  have hanyf : rest.any (fun p => bioscanIsOpenMarker U p) = false :=
                    List.any_eq_false.mpr (fun x hx => by simp [hany x hx])
                  by_cases hg : bioscanIsGenusToken U p0 = true
                  · by_cases hep : bioscanIsEpithetToken U (toLowerStr U p1) = true
                    · refine ⟨p0, p1, rest, hne2, rfl, hm0, hm1, ?_, hg, hep, ?_⟩
                      · intro p hp
                        simp [hany p hp]
                      · simp [bioscanParseSpecies, hne2, hfe, hm0, hm1, hanyf, hg, hep]
                    · exfalso
                      simp at hep
                      simp [bioscanParseSpecies, hne2, hfe, hm0, hm1, hanyf, hg, hep] at h
                  · exfalso
                    simp at hg
                    simp [bioscanParseSpecies, hne2, hfe, hm0, hm1, hanyf, hg] at h

theorem toLowerStr_idem (U : UOracle) (hw : UWF U) (s : Str) :
    toLowerStr U (toLowerStr U s) = toLowerStr U s := by
  unfold toLowerStr
  rw [List.map_map]
  exact List.map_eq_map_iff.mpr (fun a _ => hw.toLowIdem a)

theorem normalizeToken_toLower (U : UOracle) (hw : UWF U) (t : Str)
    (hns : ∀ c ∈ t, U.isSpace c = false) :
    bioscanNormalizeToken U (toLowerStr U t) = bioscanNormalizeToken U t := by
  have hns2 : ∀ c ∈ toLowerStr U t, U.isSpace c = false := by
    intro c hc
    obtain ⟨c0, hc0, rfl⟩ := List.mem_map.mp hc
    exact hw.toLowKeepNotSpace c0 (hns c0 hc0)
  unfold bioscanNormalizeToken
  rw [trimSpace_eq_self_all U _ hns2, trimSpace_eq_self_all U _ hns, toLowerStr_idem U hw]

theorem normalizeLabel_canonical (U : UOracle) (hw : UWF U) (p0 epi : Str)
    (hp0ne : p0 ≠ []) (hp0ns : ∀ c ∈ p0, U.isSpace c = false)
    (hepine : epi ≠ []) (hepins : ∀ c ∈ epi, U.isSpace c = false) :
    bioscanNormalizeLabel U (p0 ++ (' ' :: epi)) = p0 ++ (' ' :: epi) := by
  have htrim : trimSpace U (p0 ++ (' ' :: epi)) = p0 ++ (' ' :: epi) := by
    apply trimSpace_eq_of_ends
    · intro c hc
      cases hp : p0 with
      | nil => exact absurd hp hp0ne
      | cons a t =>
          rw [hp] at hc
          have hac : a = c := Option.some.inj (by exact hc)
          exact hp0ns c (by rw [hp, ← hac]; simp)
    · intro c hc
      rw [List.getLast?_append_of_ne_nil _ (by simp)] at hc
      cases hp : epi with
      | nil => exact absurd hp hepine
      | cons a t =>
          rw [hp, List.getLast?_cons_cons] at hc
          exact hepins c (by rw [hp]; exact List.mem_of_mem_getLast? hc)
  have hCne : (p0 ++ (' ' :: epi)).isEmpty = false := by
    cases hp : p0 with
    | nil => exact absurd hp hp0ne
    | cons a t => rfl
  have hfieldsC : fieldsOf U (p0 ++ (' ' :: epi)) = [p0, epi] := by
    have hj := fieldsOf_joinSpace U hw.spaceTrue [p0, epi] (by
      intro f hf
      rcases List.mem_cons.mp hf with rfl | hf
      · exact ⟨hp0ne, hp0ns⟩
      · rcases List.mem_singleton.mp hf with rfl
        exact ⟨hepine, hepins⟩)
    rw [show joinSpace [p0, epi] = p0 ++ (' ' :: epi) from rfl] at hj
    exact hj
  have hspmem : ' ' ∈ toLowerStr U (p0 ++ (' ' :: epi)) := by
    have hsp : (' ' : Char) ∈ p0 ++ (' ' :: epi) := by simp
    have := List.mem_map_of_mem U.toLow hsp
    rw [hw.toLowSpace] at this
    exact this
  have hnotph : ¬ (toLowerStr U (p0 ++ (' ' :: epi)) ∈ bioscanPlaceholderTokens) := by
    intro hmemp
    have hnosp : ∀ p ∈ bioscanPlaceholderTokens, (' ' : Char) ∉ p := by decide
    exact hnosp _ hmemp hspmem
  have hcont : bioscanPlaceholderTokens.contains (toLowerStr U (p0 ++ (' ' :: epi))) = false := by
    cases hb : bioscanPlaceholderTokens.contains (toLowerStr U (p0 ++ (' ' :: epi)))
    · rfl
    · exact absurd (List.elem_iff.mp hb) hnotph
  unfold bioscanNormalizeLabel
  rw [htrim]
  rw [if_neg (by simp [hCne])]
  rw [hfieldsC]
  rw [if_neg (by simp)]
  rw [show joinSpace [p0, epi] = p0 ++ (' ' :: epi) from rfl]
  rw [if_neg (by rw [hcont]; exact Bool.false_ne_true)]

/-- C8: classification is idempotent on the canonical reformatting — a label
that resolves to canonical `C` resolves again on input `C`, with the same
canonical string. -/
theorem c8_classification_idempotent (U : UOracle) (hw : UWF U) (s : Str)
    (h : (bioscanParseSpecies U s).kind = SpeciesKind.resolvedK) :
    (bioscanParseSpecies U ((bioscanParseSpecies U s).canonical)).kind =
      SpeciesKind.resolvedK ∧
    (bioscanParseSpecies U ((bioscanParseSpecies U s).canonical)).canonical =
      (bioscanParseSpecies U s).canonical := by
  obtain ⟨p0, p1, rest, hne, hfe, hm0, hm1, hrest, hg, hep, hcanon⟩ := parse_resolved_inv U s h
  have hp0 := fieldsOf_no_space U _ p0 (by rw [hfe]; simp)
  have hp1 := fieldsOf_no_space U _ p1 (by rw [hfe]; simp)
  have hepins : ∀ c ∈ toLowerStr U p1, U.isSpace c = false := by
    intro c hc
    obtain ⟨c0, hc0, rfl⟩ := List.mem_map.mp hc
    exact hw.toLowKeepNotSpace c0 (hp1.2 c0 hc0)
  have hepine : toLowerStr U p1 ≠ [] := by
    intro hx
    exact hp1.1 (by simpa [toLowerStr] using hx)
  have hnormC := normalizeLabel_canonical U hw p0 (toLowerStr U p1) hp0.1 hp0.2 hepine hepins
  have hCne : ((p0 ++ (' ' :: toLowerStr U p1)).isEmpty) = false := by
    cases hp : p0 with
    | nil => exact absurd hp hp0.1
    | cons a t => rfl
  have hfieldsC : fieldsOf U (p0 ++ (' ' :: toLowerStr U p1)) = [p0, toLowerStr U p1] := by
    have hj := fieldsOf_joinSpace U hw.spaceTrue [p0, toLowerStr U p1] (by
      intro f hf
      rcases List.mem_cons.mp hf with rfl | hf
      · exact ⟨hp0.1, hp0.2⟩
      · rcases List.mem_singleton.mp hf with rfl
        exact ⟨hepine, hepins⟩)
    rw [show joinSpace [p0, toLowerStr U p1] = p0 ++ (' ' :: toLowerStr U p1) from rfl] at hj
    exact hj
  have hm1e : bioscanIsOpenMarker U (toLowerStr U p1) = false := by
    unfold bioscanIsOpenMarker at hm1 ⊢
    rw [normalizeToken_toLower U hw p1 hp1.2]
    exact hm1
  have heplow : toLowerStr U (toLowerStr U p1) = toLowerStr U p1 := toLowerStr_idem U hw p1
  have happ := parse_eval_resolved U (p0 ++ (' ' :: toLowerStr U p1))
    (by rw [hnormC]; exact hCne) p0 (toLowerStr U p1) []
    (by rw [hnormC]; exact hfieldsC) hm0 hm1e (by intro p hp; cases hp) hg
    (by rw [heplow]; exact hep)
  rw [hcanon, happ]
  exact ⟨rfl, by rw [heplow]⟩

/-- Witness for C8 at the label `"Homo sapiens"` under identity lowercasing. -/
theorem c8_classification_idempotent_witness :
    (bioscanParseSpecies idLowU
        ((bioscanParseSpecies idLowU ( "Homo sapiens".toList)).canonical)).kind =
      SpeciesKind.resolvedK ∧
    (bioscanParseSpecies idLowU
        ((bioscanParseSpecies idLowU ( "Homo sapiens".toList)).canonical)).canonical =
      (bioscanParseSpecies idLowU ( "Homo sapiens".toList)).canonical :=
  c8_classification_idempotent idLowU
    ⟨by decide, rfl, fun _ => rfl, fun _ h => h⟩
    ( "Homo sapiens".toList) (by decide)

/-! ## C2: the eight-way bucket partition -/

theorem pass1Step_total (ctx : SplitCtx) (st : Pass1State) (r : FastaRec) :
    (pass1Step ctx st r).totalRecords = st.totalRecords + 1 := by
  unfold pass1Step
  split
  · rfl
  · split <;> rfl

theorem pass1_total (ctx : SplitCtx) (records : List FastaRec) :
    (pass1 ctx records).totalRecords = records.length := by
  unfold pass1
  have hgen : ∀ (l : List FastaRec) (st : Pass1State),
      (l.foldl (pass1Step ctx) st).totalRecords = st.totalRecords + l.length := by
    intro l
    induction l with
    | nil => intro st; simp
    | cons r rest ih =>
        intro st
        simp only [List.foldl_cons, ih, pass1Step_total, List.length_cons]
        omega
  rw [hgen]
  simp

theorem foldl_append_join {α β : Type} (f : α → List β) (ls : List α) (acc : List β) :
    ls.foldl (fun a x => a ++ f x) acc = acc ++ (ls.map f).flatten := by
  induction ls generalizing acc with
  | nil => simp
  | cons x rest ih =>
      simp only [List.foldl_cons, List.map_cons, List.flatten_cons, ih, List.append_assoc]

theorem assignUnits_bucket_mem (units : List BarcodeUnit) (targets : List (Str × Int))
    (h : Hash) (b : Str) (hmem : (h, b) ∈ assignUnits units targets) :
    b ∈ targets.map Prod.fst := by
  induction targets generalizing units with
  | nil => cases hmem
  | cons t rest ih =>
      obtain ⟨bucket, target⟩ := t
      simp only [assignUnits] at hmem
      split at hmem
      · cases hmem
      · split at hmem
        · obtain ⟨u, _, he⟩ := List.mem_map.mp hmem
          cases he
          simp
        · rcases List.mem_append.mp hmem with hmem | hmem
          · obtain ⟨u, _, he⟩ := List.mem_map.mp hmem
            cases he
            simp
          · exact List.mem_cons_of_mem _ (ih _ hmem)

theorem planForLabel_bucket_mem (ctx : SplitCtx) (label : Str) (units : List BarcodeUnit)
    (total : Nat) (h : Hash) (b : Str)
    (hmem : (h, b) ∈ planForLabel ctx label units total) : b ∈ allBuckets := by
  have hsub1 : ∀ x ∈ [bucketSeenTest, bucketSeenVal, bucketSeenTrain], x ∈ allBuckets := by
    decide
  have hsub2 : ∀ x ∈ [bucketUnseenTest, bucketUnseenVal, bucketUnseenKeys], x ∈ allBuckets := by
    decide
  unfold planForLabel at hmem
  split at hmem
  · have hbm := assignUnits_bucket_mem _ _ _ _ hmem
    simp only [List.map_cons, List.map_nil] at hbm
    exact hsub1 b hbm
  · split at hmem
    · have hbm := assignUnits_bucket_mem _ _ _ _ hmem
      simp only [List.map_cons, List.map_nil] at hbm
      exact hsub2 b hbm
    · obtain ⟨u, _, he⟩ := List.mem_map.mp hmem
      cases he
      simp [allBuckets]

theorem buildSeqBucket_bucket_mem (ctx : SplitCtx) (groups : List (Hash × BarcodeGroup))
    (h : Hash) (b : Str) (hmem : (h, b) ∈ buildSeqBucket ctx groups) : b ∈ allBuckets := by
  unfold buildSeqBucket at hmem
  rw [foldl_append_join] at hmem
  simp only [List.nil_append] at hmem
  obtain ⟨chunk, hchunk, hmem2⟩ := List.mem_flatten.mp hmem
  obtain ⟨label, _, he⟩ := List.mem_map.mp hchunk
  subst he
  exact planForLabel_bucket_mem ctx label _ _ h b hmem2

theorem pass2Bucket_mem (ctx : SplitCtx) (plan : SplitPlanM)
    (hplan : ∀ h b, (h, b) ∈ plan.seqBucket → b ∈ allBuckets) (r : FastaRec) :
    pass2Bucket ctx plan r ∈ allBuckets := by
  have hpre : bucketPretrain ∈ allBuckets := by decide
  unfold pass2Bucket
  by_cases h1 : plan.invalidIDs.contains r.pid = true
  · rw [if_pos h1]
    exact hpre
  · rw [if_neg h1]
    cases h2 : lookupA ctx.labels r.pid with
    | none =>
        simp only [h2]
        exact hpre
    | some lab =>
        simp only [h2]
        by_cases h3 : plan.conflicted.contains (ctx.hashFn r.seq) = true
        · rw [if_pos h3]
          exact hpre
        · rw [if_neg h3]
          cases h4 : lookupA plan.seqBucket (ctx.hashFn r.seq) with
          | none =>
              simp only [h4]
              exact hpre
          | some b2 =>
              simp only [h4]
              exact hplan _ b2 (lookupA_some_mem _ _ _ h4)

theorem sum_indicator (bs : List Str) (x : Str) (hnd : bs.Nodup) (hx : x ∈ bs) :
    (bs.map (fun b => if x = b then 1 else 0)).sum = 1 := by
  induction bs with
  | nil => cases hx
  | cons b rest ih =>
      simp only [List.map_cons, List.sum_cons]
      rcases List.mem_cons.mp hx with rfl | hx2
      · rw [if_pos rfl]
        have hz : (rest.map (fun b2 => if x = b2 then 1 else 0)).sum = 0 := by
          apply List.sum_eq_zero
          intro y hy
          obtain ⟨b2, hb2, he⟩ := List.mem_map.mp hy
          have : ¬ x = b2 := by
            intro hxe
            subst hxe
            exact (List.nodup_cons.mp hnd).1 hb2
          simp [this] at he
          omega
        omega
      · have hxb : ¬ x = b := by
          intro he
          subst he
          exact (List.nodup_cons.mp hnd).1 hx2
        rw [if_neg hxb]
        have := ih (List.nodup_cons.mp hnd).2 hx2
        omega

theorem sum_map_add (bs : List Str) (f g : Str → Nat) :
    (bs.map (fun b => f b + g b)).sum = (bs.map f).sum + (bs.map g).sum := by
  induction bs with
  | nil => rfl
  | cons b rest ih =>
      simp only [List.map_cons, List.sum_cons, ih]
      omega

theorem count_partition (bs : List Str) (l : List Str) (hnd : bs.Nodup)
    (hmem : ∀ x ∈ l, x ∈ bs) : (bs.map (fun b => l.count b)).sum = l.length := by
  induction l with
  | nil => simp
  | cons x rest ih =>
      have hx : x ∈ bs := hmem x (by simp)
      have hr : ∀ y ∈ rest, y ∈ bs := fun y hy => hmem y (List.mem_cons_of_mem _ hy)
      have hcnt : ∀ b, (x :: rest).count b = rest.count b + (if x = b then 1 else 0) := by
        intro b
        rw [List.count_cons]
        by_cases hxb : x = b
        · subst hxb
          simp
        · simp [hxb, Ne.symm hxb]
      calc (bs.map (fun b => (x :: rest).count b)).sum
          = (bs.map (fun b => rest.count b + (if x = b then 1 else 0))).sum := by
            congr 1
            exact List.map_eq_map_iff.mpr (fun b _ => hcnt b)
        _ = (bs.map (fun b => rest.count b)).sum +
            (bs.map (fun b => if x = b then 1 else 0)).sum := sum_map_add bs _ _
        _ = rest.length + 1 := by rw [ih hr, sum_indicator bs x hnd hx]
        _ = (x :: rest).length := by simp

/-- C2: every record of the second pass lands in exactly one of the eight
split buckets (`pass2Bucket` is a total function into `allBuckets`), and the
per-bucket record counts sum to the `total_records` statistic of the plan. -/
theorem c2_bucket_partition (ctx : SplitCtx) (records : List FastaRec) :
    (∀ r ∈ records, pass2Bucket ctx (buildSplitPlan ctx records).1 r ∈ allBuckets) ∧
    (allBuckets.map (bucketCount ctx (buildSplitPlan ctx records).1 records)).sum =
      (buildSplitPlan ctx records).2 := by
  have hmem : ∀ r, pass2Bucket ctx (buildSplitPlan ctx records).1 r ∈ allBuckets := by
    intro r
    apply pass2Bucket_mem
    intro h b hb
    exact buildSeqBucket_bucket_mem ctx _ h b hb
  constructor
  · intro r _
    exact hmem r
  · have hsnd : (buildSplitPlan ctx records).2 = records.length := by
      unfold buildSplitPlan
      simp [pass1_total]
    rw [hsnd]
    have : (allBuckets.map (bucketCount ctx (buildSplitPlan ctx records).1 records)).sum =
        (pass2Buckets ctx (buildSplitPlan ctx records).1 records).length := by
      apply count_partition
      · decide
      · intro x hx
        obtain ⟨r, _, he⟩ := List.mem_map.mp hx
        subst he
        exact hmem r
    rw [this]
    simp [pass2Buckets]

/-- Witness for C2 on a concrete four-record input. -/
theorem c2_bucket_partition_witness :
    let ctx : SplitCtx :=
      { hashFn := fun s => s.length, labelHash := fun _ => 0,
        labels := [( "P1".toList, "L1".toList), ( "P2".toList, "L1".toList)],
        invalid0 := [] }
    let records : List FastaRec :=
      [⟨ "P1".toList, "AAA".toList⟩, ⟨ "P2".toList, "AAAA".toList⟩,
       ⟨ "P3".toList, "CC".toList⟩]
    (∀ r ∈ records, pass2Bucket ctx (buildSplitPlan ctx records).1 r ∈ allBuckets) ∧
    (allBuckets.map (bucketCount ctx (buildSplitPlan ctx records).1 records)).sum =
      (buildSplitPlan ctx records).2 :=
  c2_bucket_partition _ _

/-! ## Pass-1 grouping characterization (shared by C3, C4, C5) -/

theorem pass1_invalid_mem (ctx : SplitCtx) (records : List FastaRec) (p : Str) :
    p ∈ (pass1 ctx records).invalid ↔
      p ∈ ctx.invalid0 ∨ ∃ r ∈ records, r.pid = p ∧ lookupA ctx.labels p = none := by
  unfold pass1
  induction records using List.reverseRecOn with
  | nil => simp
  | append_singleton l r ih =>
      rw [List.foldl_append, List.foldl_cons, List.foldl_nil]
      set st := List.foldl (pass1Step ctx) { invalid := ctx.invalid0 } l with hst
      constructor
      · intro hp
        unfold pass1Step at hp
        split at hp
        · rcases ih.mp hp with hh | ⟨r2, hr2, he⟩
          · exact Or.inl hh
          · exact Or.inr ⟨r2, List.mem_append_left _ hr2, he⟩
        · split at hp
          · rename_i heq
            rcases List.mem_append.mp hp with hp | hp
            · rcases ih.mp hp with hh | ⟨r2, hr2, he⟩
              · exact Or.inl hh
              · exact Or.inr ⟨r2, List.mem_append_left _ hr2, he⟩
            · rcases List.mem_singleton.mp hp with rfl
              exact Or.inr ⟨r, List.mem_append_right _ (by simp), rfl, heq⟩
          · rcases ih.mp hp with hh | ⟨r2, hr2, he⟩
            · exact Or.inl hh
            · exact Or.inr ⟨r2, List.mem_append_left _ hr2, he⟩
      · intro hp
        have hbase : p ∈ ctx.invalid0 ∨ (∃ r2 ∈ l, r2.pid = p ∧ lookupA ctx.labels p = none) →
            p ∈ st.invalid := fun hh => ih.mpr hh
        unfold pass1Step
        rcases hp with hh | ⟨r2, hr2, he⟩
        · have hmem := hbase (Or.inl hh)
          split
          · exact hmem
          · split
            · exact List.mem_append_left _ hmem
            · exact hmem
        · rcases List.mem_append.mp hr2 with hr2 | hr2
          · have hmem := hbase (Or.inr ⟨r2, hr2, he⟩)
            split
            · exact hmem
            · split
              · exact List.mem_append_left _ hmem
              · exact hmem
          · rcases List.mem_singleton.mp hr2 with rfl
            obtain ⟨hpid, hnone⟩ := he
            subst hpid
            split
            · rename_i hcont
              exact List.elem_iff.mp hcont
            · split
              · exact List.mem_append_right _ (by simp)
              · rename_i lab heq
                rw [hnone] at heq
                cases heq

theorem pass1_groups_keys_nodup (ctx : SplitCtx) (records : List FastaRec) :
    ((pass1 ctx records).groups.map Prod.fst).Nodup := by
  unfold pass1
  have hgen : ∀ (l : List FastaRec) (st : Pass1State),
      (st.groups.map Prod.fst).Nodup →
      ((l.foldl (pass1Step ctx) st).groups.map Prod.fst).Nodup := by
    intro l
    induction l with
    | nil => intro st hst; exact hst
    | cons r rest ih =>
        intro st hst
        simp only [List.foldl_cons]
        apply ih
        unfold pass1Step
        split
        · exact hst
        · split
          · exact hst
          · exact updateA_keys_nodup _ _ _ hst
  exact hgen records _ (by simp)

theorem classRecs_append (ctx : SplitCtx) (l1 l2 : List FastaRec) (h : Hash) :
    classRecs ctx (l1 ++ l2) h = classRecs ctx l1 h ++ classRecs ctx l2 h := by
  unfold classRecs
  rw [List.filter_append]

theorem pass1_append_singleton (ctx : SplitCtx) (l : List FastaRec) (r : FastaRec) :
    pass1 ctx (l ++ [r]) = pass1Step ctx (pass1 ctx l) r := by
  unfold pass1
  rw [List.foldl_append, List.foldl_cons, List.foldl_nil]

theorem classRecs_singleton (ctx : SplitCtx) (r : FastaRec) (h : Hash) :
    classRecs ctx [r] h =
      if (validB ctx r && decide (ctx.hashFn r.seq = h)) = true then [r] else [] := by
  simp only [classRecs]
  cases hb : (validB ctx r && decide (ctx.hashFn r.seq = h)) <;>
    simp [List.filter, hb]

theorem pass1Step_groups_none_old (ctx : SplitCtx) (st : Pass1State) (r : FastaRec)
    (lab : Str) (hcont : ¬ st.invalid.contains r.pid = true)
    (heqL : lookupA ctx.labels r.pid = some lab)
    (hold : lookupA st.groups (ctx.hashFn r.seq) = none) :
    (pass1Step ctx st r).groups =
      updateA st.groups (ctx.hashFn r.seq) { label := lab, count := 1, conflict := false } := by
  unfold pass1Step
  rw [if_neg hcont]
  simp [heqL, hold]

theorem pass1Step_groups_some_old (ctx : SplitCtx) (st : Pass1State) (r : FastaRec)
    (lab : Str) (gOld : BarcodeGroup) (hcont : ¬ st.invalid.contains r.pid = true)
    (heqL : lookupA ctx.labels r.pid = some lab)
    (hold : lookupA st.groups (ctx.hashFn r.seq) = some gOld)
    (hcnz : ¬ gOld.count = 0) :
    (pass1Step ctx st r).groups =
      updateA st.groups (ctx.hashFn r.seq)
        (if gOld.label ≠ lab then
          { label := gOld.label, count := gOld.count + 1, conflict := true }
         else
          { label := gOld.label, count := gOld.count + 1, conflict := gOld.conflict }) := by
  unfold pass1Step
  rw [if_neg hcont]
  simp only [heqL, hold, Option.getD]
  rw [if_neg hcnz]
  by_cases hlab : gOld.label ≠ lab
  · rw [if_pos hlab, if_pos hlab]
  · rw [if_neg hlab, if_neg hlab]

theorem pass1Step_groups_shape (ctx : SplitCtx) (st : Pass1State) (r : FastaRec) :
    (pass1Step ctx st r).groups = st.groups ∨
    ∃ v, (pass1Step ctx st r).groups = updateA st.groups (ctx.hashFn r.seq) v := by
  unfold pass1Step
  split
  · exact Or.inl rfl
  · split
    · exact Or.inl rfl
    · exact Or.inr ⟨_, rfl⟩

/-- Characterization of the barcode-group map after the grouping pass: a hash
is mapped exactly when its class is nonempty; the group's count is the class
size, its label is the label of some class member, and the conflict flag is
clear exactly when every class member carries the group label. -/
theorem pass1_groups_char (ctx : SplitCtx) (records : List FastaRec) (h : Hash) :
    (lookupA (pass1 ctx records).groups h = none → classRecs ctx records h = []) ∧
    (∀ g, lookupA (pass1 ctx records).groups h = some g →
      classRecs ctx records h ≠ [] ∧
      g.count = (classRecs ctx records h).length ∧
      (∃ r ∈ classRecs ctx records h, lookupA ctx.labels r.pid = some g.label) ∧
      (g.conflict = false ↔
        ∀ r ∈ classRecs ctx records h, lookupA ctx.labels r.pid = some g.label)) := by
  induction records using List.reverseRecOn with
  | nil =>
      constructor
      · intro _
        rfl
      · intro g hg
        simp [pass1, lookupA] at hg
  | append_singleton l r ih =>
      rw [pass1_append_singleton]
      by_cases hcont : (pass1 ctx l).invalid.contains r.pid = true
      · have hvf : validB ctx r = false := by
          have hm := (pass1_invalid_mem ctx l r.pid).mp (List.elem_iff.mp hcont)
          unfold validB
          rcases hm with hm | ⟨r2, _, _, hnone⟩
          · have hcc : ctx.invalid0.contains r.pid = true := List.elem_iff.mpr hm
            rw [hcc]
            rfl
          · rw [hnone]
            cases ctx.invalid0.contains r.pid <;> rfl
        have hcls : classRecs ctx (l ++ [r]) h = classRecs ctx l h := by
          rw [classRecs_append, classRecs_singleton]
          rw [if_neg (by rw [hvf]; simp)]
          simp
        have hgroups : (pass1Step ctx (pass1 ctx l) r).groups = (pass1 ctx l).groups := by
          unfold pass1Step
          rw [if_pos hcont]
        rw [hgroups, hcls]
        exact ih
      · cases heqL : lookupA ctx.labels r.pid with
        | none =>
            have hvf : validB ctx r = false := by
              unfold validB
              rw [heqL]
              cases ctx.invalid0.contains r.pid <;> rfl
            have hcls : classRecs ctx (l ++ [r]) h = classRecs ctx l h := by
              rw [classRecs_append, classRecs_singleton]
              rw [if_neg (by rw [hvf]; simp)]
              simp
            have hgroups : (pass1Step ctx (pass1 ctx l) r).groups = (pass1 ctx l).groups := by
              unfold pass1Step
              rw [if_neg hcont]
              simp [heqL]
            rw [hgroups, hcls]
            exact ih
        | some lab =>
            have hni : ¬ r.pid ∈ ctx.invalid0 := by
              intro hmm
              exact hcont
                (List.elem_iff.mpr ((pass1_invalid_mem ctx l r.pid).mpr (Or.inl hmm)))
            have hc0 : ctx.invalid0.contains r.pid = false := by
              cases hb : ctx.invalid0.contains r.pid
              · rfl
              · exact absurd (List.elem_iff.mp hb) hni
            have hv : validB ctx r = true := by
              unfold validB
              rw [hc0, heqL]
              rfl
            by_cases hh : h = ctx.hashFn r.seq
            · subst hh
              have hclsr : classRecs ctx (l ++ [r]) (ctx.hashFn r.seq) =
                  classRecs ctx l (ctx.hashFn r.seq) ++ [r] := by
                rw [classRecs_append, classRecs_singleton]
                rw [if_pos (by rw [hv]; simp)]
              cases hgOld : lookupA (pass1 ctx l).groups (ctx.hashFn r.seq) with
              | none =>
                  rw [pass1Step_groups_none_old ctx _ r lab hcont heqL hgOld]
                  have hclsl := ih.1 hgOld
                  constructor
                  · intro hnone
                    rw [lookupA_updateA, if_pos rfl] at hnone
                    cases hnone
                  · intro g hg
                    rw [lookupA_updateA, if_pos rfl] at hg
                    have hgv : g = { label := lab, count := 1, conflict := false } :=
                      (Option.some.inj hg).symm
                    subst hgv
                    rw [hclsr, hclsl]
                    refine ⟨by simp, by simp, ⟨r, by simp, by simp [heqL]⟩, ?_⟩
                    constructor
                    · intro _ r2 hr2
                      rcases List.mem_singleton.mp (by simpa using hr2) with rfl
                      simpa using heqL
                    · intro _
                      rfl
              | some gOld =>
                  obtain ⟨hne, hcount, ⟨rw0, hrw0, hlw0⟩, hconf⟩ := ih.2 gOld hgOld
                  have hlen : 0 < (classRecs ctx l (ctx.hashFn r.seq)).length := by
                    cases hcl : classRecs ctx l (ctx.hashFn r.seq)
                    · exact absurd hcl hne
                    · simp [hcl]
                  have hcnz : ¬ gOld.count = 0 := by
                    rw [hcount]
                    omega
                  rw [pass1Step_groups_some_old ctx _ r lab gOld hcont heqL hgOld hcnz]
                  constructor
                  · intro hnone
                    rw [lookupA_updateA, if_pos rfl] at hnone
                    cases hnone
                  · intro g hg
                    rw [lookupA_updateA, if_pos rfl] at hg
                    have hgv := (Option.some.inj hg).symm
                    by_cases hlab : gOld.label ≠ lab
                    · rw [if_pos hlab] at hgv
                      subst hgv
                      rw [hclsr]
                      refine ⟨by simp, by simp [hcount], ⟨rw0, List.mem_append_left _ hrw0, hlw0⟩, ?_⟩
                      constructor
                      · intro hfalse
                        cases hfalse
                      · intro hall
                        exfalso
                        have h1 := hall rw0 (List.mem_append_left _ hrw0)
                        have h2 := hall r (List.mem_append_right _ (by simp))
                        rw [heqL] at h2
                        have hle : lab = gOld.label := Option.some.inj h2
                        rw [hlw0] at h1
                        have hle2 : gOld.label = gOld.label := rfl
                        exact hlab (by rw [hle])
                    · rw [if_neg hlab] at hgv
                      subst hgv
                      have hlab2 : gOld.label = lab := by
                        by_contra hx
                        exact hlab hx
                      rw [hclsr]
                      refine ⟨by simp, by simp [hcount], ⟨rw0, List.mem_append_left _ hrw0, hlw0⟩, ?_⟩
                      constructor
                      · intro hcf r2 hr2
                        rcases List.mem_append.mp hr2 with hr2 | hr2
                        · exact hconf.mp hcf r2 hr2
                        · rcases List.mem_singleton.mp hr2 with rfl
                          rw [heqL, hlab2]
                      · intro hall
                        apply hconf.mpr
                        intro r2 hr2
                        exact hall r2 (List.mem_append_left _ hr2)
            · have hclsr : classRecs ctx (l ++ [r]) h = classRecs ctx l h := by
                rw [classRecs_append, classRecs_singleton]
                rw [if_neg (by
                  simp only [Bool.and_eq_true, decide_eq_true_eq]
                  intro hx
                  exact hh hx.2.symm)]
                simp
              have hlk : lookupA (pass1Step ctx (pass1 ctx l) r).groups h =
                  lookupA (pass1 ctx l).groups h := by
                rcases pass1Step_groups_shape ctx (pass1 ctx l) r with hs | ⟨v, hs⟩
                · rw [hs]
                · rw [hs, lookupA_updateA, if_neg hh]
              rw [hlk, hclsr]
              exact ih

theorem mem_keys_nodup_eq {α β : Type} [DecidableEq α] (l : List (α × β))
    (hnd : (l.map Prod.fst).Nodup) (a : α) (b1 b2 : β)
    (h1 : (a, b1) ∈ l) (h2 : (a, b2) ∈ l) : b1 = b2 := by
  induction l with
  | nil => cases h1
  | cons e rest ih =>
      obtain ⟨k, v⟩ := e
      simp only [List.map_cons, List.nodup_cons] at hnd
      rcases List.mem_cons.mp h1 with he1 | he1 <;> rcases List.mem_cons.mp h2 with he2 | he2
      · cases he1
        cases he2
        rfl
      · cases he1
        exact absurd (by simpa using List.mem_map_of_mem Prod.fst he2) hnd.1
      · cases he2
        exact absurd (by simpa using List.mem_map_of_mem Prod.fst he1) hnd.1
      · exact ih hnd.2 he1 he2

theorem mem_conflictedHashes (groups : List (Hash × BarcodeGroup)) (h : Hash) :
    h ∈ conflictedHashes groups ↔ ∃ g, (h, g) ∈ groups ∧ g.conflict = true := by
  unfold conflictedHashes
  constructor
  · intro hm
    obtain ⟨⟨h2, g⟩, hmem, he⟩ := List.mem_map.mp hm
    cases he
    have := List.mem_filter.mp hmem
    exact ⟨g, this.1, this.2⟩
  · rintro ⟨g, hmem, hcf⟩
    exact List.mem_map.mpr ⟨(h, g), List.mem_filter.mpr ⟨hmem, hcf⟩, rfl⟩

/-- C3: two records with a byte-identical sequence but different labels flag
their barcode group conflicted, the group is excluded from every label's unit
list, both records land in pretrain in the second pass, and so does any
record with no label or whose id is in the invalid set. -/
theorem c3_conflict_to_pretrain (ctx : SplitCtx) (records : List FastaRec)
    (r1 r2 : FastaRec) (L1 L2 : Str)
    (h1 : r1 ∈ records) (h2 : r2 ∈ records)
    (hseq : r1.seq = r2.seq)
    (hl1 : lookupA ctx.labels r1.pid = some L1)
    (hl2 : lookupA ctx.labels r2.pid = some L2)
    (hne : L1 ≠ L2)
    (hv1 : r1.pid ∉ ctx.invalid0) (hv2 : r2.pid ∉ ctx.invalid0) :
    ctx.hashFn r1.seq ∈ (buildSplitPlan ctx records).1.conflicted ∧
    (∀ label u, u ∈ unitsFor (pass1 ctx records).groups label →
      u.hash ≠ ctx.hashFn r1.seq) ∧
    pass2Bucket ctx (buildSplitPlan ctx records).1 r1 = bucketPretrain ∧
    pass2Bucket ctx (buildSplitPlan ctx records).1 r2 = bucketPretrain ∧
    (∀ r ∈ records, lookupA ctx.labels r.pid = none →
      pass2Bucket ctx (buildSplitPlan ctx records).1 r = bucketPretrain) ∧
    (∀ r, r.pid ∈ (buildSplitPlan ctx records).1.invalidIDs →
      pass2Bucket ctx (buildSplitPlan ctx records).1 r = bucketPretrain) := by
  have hplconf : (buildSplitPlan ctx records).1.conflicted =
      conflictedHashes (pass1 ctx records).groups := rfl
  have hplinv : (buildSplitPlan ctx records).1.invalidIDs = (pass1 ctx records).invalid := rfl
  have hv1b : validB ctx r1 = true := by
    unfold validB
    have hc0 : ctx.invalid0.contains r1.pid = false := by
      cases hb : ctx.invalid0.contains r1.pid
      · rfl
      · exact absurd (List.elem_iff.mp hb) hv1
    rw [hc0, hl1]
    rfl
  have hv2b : validB ctx r2 = true := by
    unfold validB
    have hc0 : ctx.invalid0.contains r2.pid = false := by
      cases hb : ctx.invalid0.contains r2.pid
      · rfl
      · exact absurd (List.elem_iff.mp hb) hv2
    rw [hc0, hl2]
    rfl
  have hm1 : r1 ∈ classRecs ctx records (ctx.hashFn r1.seq) := by
    unfold classRecs
    refine List.mem_filter.mpr ⟨h1, ?_⟩
    rw [hv1b]
    simp
  have hm2 : r2 ∈ classRecs ctx records (ctx.hashFn r1.seq) := by
    unfold classRecs
    refine List.mem_filter.mpr ⟨h2, ?_⟩
    rw [hv2b, hseq]
    simp
  obtain ⟨g, hlk⟩ : ∃ g, lookupA (pass1 ctx records).groups (ctx.hashFn r1.seq) = some g := by
    cases hlk0 : lookupA (pass1 ctx records).groups (ctx.hashFn r1.seq) with
    | none =>
        exfalso
        have := (pass1_groups_char ctx records (ctx.hashFn r1.seq)).1 hlk0
        rw [this] at hm1
        cases hm1
    | some g => exact ⟨g, rfl⟩
  obtain ⟨_, _, _, hconf⟩ := (pass1_groups_char ctx records (ctx.hashFn r1.seq)).2 g hlk
  have hgc : g.conflict = true := by
    cases hb : g.conflict
    · exfalso
      have hall := hconf.mp hb
      have ha1 := hall r1 hm1
      have ha2 := hall r2 hm2
      rw [hl1] at ha1
      rw [hl2] at ha2
      exact hne ((Option.some.inj ha1).trans (Option.some.inj ha2).symm)
    · rfl
  have hmem : (ctx.hashFn r1.seq, g) ∈ (pass1 ctx records).groups :=
    lookupA_some_mem _ _ _ hlk
  have hconfmem : ctx.hashFn r1.seq ∈ conflictedHashes (pass1 ctx records).groups :=
    (mem_conflictedHashes _ _).mpr ⟨g, hmem, hgc⟩
  have hinvmem1 : (pass1 ctx records).invalid.contains r1.pid = false := by
    cases hb : (pass1 ctx records).invalid.contains r1.pid
    · rfl
    · exfalso
      rcases (pass1_invalid_mem ctx records r1.pid).mp (List.elem_iff.mp hb) with hh | ⟨_, _, _, hh⟩
      · exact hv1 hh
      · rw [hl1] at hh
        cases hh
  have hinvmem2 : (pass1 ctx records).invalid.contains r2.pid = false := by
    cases hb : (pass1 ctx records).invalid.contains r2.pid
    · rfl
    · exfalso
      rcases (pass1_invalid_mem ctx records r2.pid).mp (List.elem_iff.mp hb) with hh | ⟨_, _, _, hh⟩
      · exact hv2 hh
      · rw [hl2] at hh
        cases hh
  have hccont : (conflictedHashes (pass1 ctx records).groups).contains (ctx.hashFn r1.seq) = true :=
    List.elem_iff.mpr hconfmem
  refine ⟨by rw [hplconf]; exact hconfmem, ?_, ?_, ?_, ?_, ?_⟩
  · intro label u hu
    intro hhash
    unfold unitsFor at hu
    obtain ⟨⟨h2x, g2⟩, hmemf, he⟩ := List.mem_map.mp hu
    have hin := List.mem_filter.mp hmemf
    have hg2 : g2.conflict = false := by
      have := hin.2
      simp only [Bool.and_eq_true, Bool.not_eq_true'] at this
      exact this.1
    have hkey : h2x = ctx.hashFn r1.seq := by
      have : u.hash = h2x := by rw [← he]
      rw [← this, hhash]
    subst hkey
    have heqg : g2 = g := mem_keys_nodup_eq _ (pass1_groups_keys_nodup ctx records) _ _ _ hin.1 hmem
    rw [heqg] at hg2
    rw [hgc] at hg2
    cases hg2
  · unfold pass2Bucket
    rw [hplinv, if_neg (by rw [hinvmem1]; simp)]
    rw [hl1]
    rw [hplconf, if_pos hccont]
  · unfold pass2Bucket
    rw [hplinv, if_neg (by rw [hinvmem2]; simp)]
    rw [hl2]
    rw [hplconf]
    rw [if_pos (by rw [← hseq]; exact hccont)]
  · intro r _ hnl
    unfold pass2Bucket
    by_cases hb : (buildSplitPlan ctx records).1.invalidIDs.contains r.pid = true
    · rw [if_pos hb]
    · rw [if_neg hb, hnl]
  · intro r hrm
    unfold pass2Bucket
    rw [if_pos (List.elem_iff.mpr hrm)]

theorem c3_conflict_to_pretrain_witness :
    let ctx : SplitCtx :=
      { hashFn := fun s => s.length, labelHash := fun _ => 0,
        labels := [( "P1".toList, "L1".toList), ( "P2".toList, "L2".toList)],
        invalid0 := [] }
    let records : List FastaRec :=
      [⟨ "P1".toList, "AAA".toList⟩, ⟨ "P2".toList, "AAA".toList⟩]
    pass2Bucket ctx (buildSplitPlan ctx records).1 ⟨ "P1".toList, "AAA".toList⟩ =
      bucketPretrain ∧
    pass2Bucket ctx (buildSplitPlan ctx records).1 ⟨ "P2".toList, "AAA".toList⟩ =
      bucketPretrain := by
  intro ctx records
  have h := c3_conflict_to_pretrain ctx records
      ⟨ "P1".toList, "AAA".toList⟩ ⟨ "P2".toList, "AAA".toList⟩
      ( "L1".toList) ( "L2".toList)
      (by decide) (by decide) rfl (by decide) (by decide) (by decide) (by decide) (by decide)
  exact ⟨h.2.2.1, h.2.2.2.1⟩

/-! ## Quota consumption (C5) -/

theorem takeByCount_spec (units : List BarcodeUnit) (t : Int) :
    TakeSpec t units (takeByCount units t).1 (takeByCount units t).2 := by
  induction units generalizing t with
  | nil =>
      refine ⟨rfl, ?_, ?_⟩
      · intro A1 u A2 hA
        simp [takeByCount] at hA
      · intro hB
        simp [takeByCount] at hB
  | cons u rest ih =>
      by_cases ht : 0 < t
      · have hdef1 : (takeByCount (u :: rest) t).1 =
            u :: (takeByCount rest (t - (u.count : Int))).1 := by
          simp [takeByCount, ht]
        have hdef2 : (takeByCount (u :: rest) t).2 =
            (takeByCount rest (t - (u.count : Int))).2 := by
          simp [takeByCount, ht]
        obtain ⟨heq, hpre, hfin⟩ := ih (t - (u.count : Int))
        refine ⟨?_, ?_, ?_⟩
        · rw [hdef1, hdef2, List.cons_append, ← heq]
        · intro A1 v A2 hA
          rw [hdef1] at hA
          cases A1 with
          | nil => simpa using ht
          | cons a A1' =>
              rw [List.cons_append] at hA
              injection hA with hau htail
              have hlt := hpre A1' v A2 htail
              subst hau
              simp only [List.map_cons, List.sum_cons]
              push_cast at hlt
              omega
        · intro hB
          rw [hdef2] at hB
          have hle := hfin hB
          rw [hdef1]
          simp only [List.map_cons, List.sum_cons]
          push_cast at hle
          omega
      · have hdef1 : (takeByCount (u :: rest) t).1 = [] := by
          simp [takeByCount, ht]
        have hdef2 : (takeByCount (u :: rest) t).2 = u :: rest := by
          simp [takeByCount, ht]
        refine ⟨by rw [hdef1, hdef2]; rfl, ?_, ?_⟩
        · intro A1 v A2 hA
          rw [hdef1] at hA
          exact absurd hA.symm (List.append_ne_nil_of_right_ne_nil _ (List.cons_ne_nil v A2))
        · intro _
          rw [hdef1]
          simp only [List.map_nil, List.sum_nil]
          omega

theorem assignUnits_nil (l : List (Str × Int)) : assignUnits [] l = [] := by
  cases l with
  | nil => rfl
  | cons p rest =>
      obtain ⟨b, t⟩ := p
      simp [assignUnits]

theorem assignUnits_cons_eq (units : List BarcodeUnit) (b : Str) (t : Int)
    (rest : List (Str × Int)) (hne : units ≠ []) (hnt : ¬ t < 0) :
    assignUnits units ((b, t) :: rest) =
      ((takeByCount units t).1.map (fun u => (u.hash, b))) ++
      assignUnits (takeByCount units t).2 rest := by
  have hie : units.isEmpty = false := by
    cases units with
    | nil => exact absurd rfl hne
    | cons x xs => rfl
  simp [assignUnits, hie, hnt]

theorem assignUnits_neg (units : List BarcodeUnit) (b : Str) (t : Int)
    (rest : List (Str × Int)) (hnt : t < 0) :
    assignUnits units ((b, t) :: rest) = units.map (fun u => (u.hash, b)) := by
  cases units with
  | nil => simp [assignUnits]
  | cons u us => simp [assignUnits, hnt]

theorem assignUnits_three (units : List BarcodeUnit) (b1 b2 b3 : Str) (t1 t2 : Int)
    (h1 : 0 ≤ t1) (h2 : 0 ≤ t2) :
    TakeSpec t1 units (takeByCount units t1).1 (takeByCount units t1).2 ∧
    TakeSpec t2 (takeByCount units t1).2 (takeByCount (takeByCount units t1).2 t2).1
      (takeByCount (takeByCount units t1).2 t2).2 ∧
    assignUnits units [(b1, t1), (b2, t2), (b3, -1)] =
      ((takeByCount units t1).1.map (fun u => (u.hash, b1))) ++
      ((takeByCount (takeByCount units t1).2 t2).1.map (fun u => (u.hash, b2))) ++
      ((takeByCount (takeByCount units t1).2 t2).2.map (fun u => (u.hash, b3))) := by
  have hnt1 : ¬ t1 < 0 := not_lt.mpr h1
  have hnt2 : ¬ t2 < 0 := not_lt.mpr h2
  refine ⟨takeByCount_spec units t1, takeByCount_spec _ t2, ?_⟩
  by_cases he : units = []
  · subst he
    simp [takeByCount, assignUnits_nil]
  · rw [assignUnits_cons_eq units b1 t1 _ he hnt1]
    by_cases he2 : (takeByCount units t1).2 = []
    · rw [he2]
      simp [takeByCount, assignUnits_nil]
    · rw [assignUnits_cons_eq _ b2 t2 _ he2 hnt2]
      by_cases he3 : (takeByCount (takeByCount units t1).2 t2).2 = []
      · rw [he3]
        simp [assignUnits_nil, List.append_assoc]
      · rw [assignUnits_neg _ b3 (-1) _ (by norm_num)]
        simp [List.append_assoc]

/-- C5: a label with at least 8 records across at least 2 barcode groups is
classified seen; its hash-sorted unit list splits into a seen_test prefix
consumed until quota min(25, ceil(2n/10)) is met, a seen_val segment
consumed until quota ceil((n - test)/20) is met, and a seen_train remainder
absorbing everything left. -/
theorem c5_seen_label_quotas (ctx : SplitCtx) (label : Str) (units : List BarcodeUnit)
    (total : Nat) (htot : total ≥ 8) (hlen : units.length ≥ 2) :
    ∃ A B C : List BarcodeUnit,
      sortUnits units = A ++ (B ++ C) ∧
      List.Sorted unitLe (sortUnits units) ∧
      (sortUnits units).Perm units ∧
      TakeSpec (specTestQuota total : Int) (sortUnits units) A (B ++ C) ∧
      TakeSpec (specValQuota total : Int) (B ++ C) B C ∧
      planForLabel ctx label units total =
        A.map (fun u => (u.hash, bucketSeenTest)) ++
        B.map (fun u => (u.hash, bucketSeenVal)) ++
        C.map (fun u => (u.hash, bucketSeenTrain)) := by
  have hcond : total ≥ 8 ∧ units.length ≥ 2 := ⟨htot, hlen⟩
  have htq : min 25 (ceilDiv (2 * total) 10) = specTestQuota total := by
    unfold ceilDiv specTestQuota
    rw [if_neg (by omega)]
    omega
  have hvq : ceilDiv (total - specTestQuota total) 20 = specValQuota total := by
    unfold ceilDiv specValQuota
    rcases Nat.eq_zero_or_pos (total - specTestQuota total) with h0 | hpos
    · rw [if_pos (Or.inr h0), h0]
    · rw [if_neg (by omega)]
      omega
  obtain ⟨hsp1, hsp2, heq⟩ :=
    assignUnits_three (sortUnits units) bucketSeenTest bucketSeenVal bucketSeenTrain
      (specTestQuota total : Int) (specValQuota total : Int)
      (Int.ofNat_nonneg _) (Int.ofNat_nonneg _)
  refine ⟨(takeByCount (sortUnits units) (specTestQuota total : Int)).1,
          (takeByCount (takeByCount (sortUnits units) (specTestQuota total : Int)).2
            (specValQuota total : Int)).1,
          (takeByCount (takeByCount (sortUnits units) (specTestQuota total : Int)).2
            (specValQuota total : Int)).2, ?_, ?_, ?_, ?_, ?_, ?_⟩
  · exact hsp1.1.trans (by rw [← hsp2.1])
  · exact List.sorted_insertionSort unitLe units
  · exact List.perm_insertionSort unitLe units
  · rw [← hsp2.1]
    exact hsp1
  · rw [← hsp2.1]
    exact hsp2
  · simp only [planForLabel]
    rw [if_pos hcond, htq, hvq]
    exact heq

theorem c5_seen_label_quotas_witness :
    let ctx : SplitCtx :=
      { hashFn := fun s => s.length, labelHash := fun _ => 0,
        labels := [], invalid0 := [] }
    ∃ A B C : List BarcodeUnit,
      sortUnits [⟨5, 3⟩, ⟨1, 4⟩, ⟨9, 2⟩, ⟨3, 1⟩] = A ++ (B ++ C) ∧
      List.Sorted unitLe (sortUnits [⟨5, 3⟩, ⟨1, 4⟩, ⟨9, 2⟩, ⟨3, 1⟩]) ∧
      (sortUnits [⟨5, 3⟩, ⟨1, 4⟩, ⟨9, 2⟩, ⟨3, 1⟩]).Perm [⟨5, 3⟩, ⟨1, 4⟩, ⟨9, 2⟩, ⟨3, 1⟩] ∧
      TakeSpec (specTestQuota 10 : Int) (sortUnits [⟨5, 3⟩, ⟨1, 4⟩, ⟨9, 2⟩, ⟨3, 1⟩]) A (B ++ C) ∧
      TakeSpec (specValQuota 10 : Int) (B ++ C) B C ∧
      planForLabel ctx ( "L".toList) [⟨5, 3⟩, ⟨1, 4⟩, ⟨9, 2⟩, ⟨3, 1⟩] 10 =
        A.map (fun u => (u.hash, bucketSeenTest)) ++
        B.map (fun u => (u.hash, bucketSeenVal)) ++
        C.map (fun u => (u.hash, bucketSeenTrain)) := by
  intro ctx
  exact c5_seen_label_quotas ctx ( "L".toList) [⟨5, 3⟩, ⟨1, 4⟩, ⟨9, 2⟩, ⟨3, 1⟩] 10
    (by decide) (by decide)

/-! ## BIN consensus resolver (C1) -/

theorem ltStr_irrefl (s : Str) : ltStr s s = false := by
  induction s with
  | nil => rfl
  | cons x xs ih => simp [ltStr, lt_self_iff_false, ih]

theorem ltStr_trans (a : Str) : ∀ b c : Str,
    ltStr a b = true → ltStr b c = true → ltStr a c = true := by
  induction a with
  | nil =>
      intro b c h1 h2
      cases b with
      | nil => simp [ltStr] at h1
      | cons y bs =>
          cases c with
          | nil => simp [ltStr] at h2
          | cons z cs => simp [ltStr]
  | cons x as ih =>
      intro b c h1 h2
      cases b with
      | nil => simp [ltStr] at h1
      | cons y bs =>
          cases c with
          | nil => simp [ltStr] at h2
          | cons z cs =>
              simp only [ltStr] at h1 h2 ⊢
              by_cases hxy : x < y
              · by_cases hyz : y < z
                · rw [if_pos (lt_trans hxy hyz)]
                · rw [if_neg hyz] at h2
                  by_cases hzy : z < y
                  · rw [if_pos hzy] at h2
                    exact absurd h2 Bool.false_ne_true
                  · have hyzeq : y = z := le_antisymm (not_lt.mp hzy) (not_lt.mp hyz)
                    subst hyzeq
                    rw [if_pos hxy]
              · rw [if_neg hxy] at h1
                by_cases hyx : y < x
                · rw [if_pos hyx] at h1
                  exact absurd h1 Bool.false_ne_true
                · rw [if_neg hyx] at h1
                  have hxyeq : x = y := le_antisymm (not_lt.mp hyx) (not_lt.mp hxy)
                  subst hxyeq
                  by_cases hxz : x < z
                  · rw [if_pos hxz]
                  · rw [if_neg hxz] at h2 ⊢
                    by_cases hzx : z < x
                    · rw [if_pos hzx] at h2
                      exact absurd h2 Bool.false_ne_true
                    · rw [if_neg hzx] at h2 ⊢
                      exact ih bs cs h1 h2

theorem maxIntList_cons (x : Int) (l : List Int) :
    maxIntList (x :: l) = max x (maxIntList l) := rfl

theorem le_maxIntList (l : List Int) (a : Int) (ha : a ∈ l) : a ≤ maxIntList l := by
  induction l with
  | nil => cases ha
  | cons x xs ih =>
      rcases List.mem_cons.mp ha with h | h
      · subst h
        exact le_max_left _ _
      · exact le_trans (ih h) (le_max_right _ _)

theorem neg_one_le_maxIntList (l : List Int) : -1 ≤ maxIntList l := by
  induction l with
  | nil => exact le_refl _
  | cons x xs ih =>
      rw [maxIntList_cons]
      exact le_trans ih (le_max_right _ _)

theorem foldr_max_init (l : List Int) (a : Int) (ha : -1 ≤ a) :
    l.foldr max a = max a (l.foldr max (-1)) := by
  induction l with
  | nil => exact (max_eq_left ha).symm
  | cons x xs ih =>
      simp only [List.foldr_cons]
      rw [ih]
      omega

theorem maxIntList_append_singleton (l : List Int) (a : Int) (ha : -1 ≤ a) :
    maxIntList (l ++ [a]) = max a (maxIntList l) := by
  unfold maxIntList
  rw [List.foldr_append]
  simp only [List.foldr_cons, List.foldr_nil]
  rw [max_eq_left ha]
  exact foldr_max_init l a ha

theorem maxIntList_perm {l l' : List Int} (p : l.Perm l') : maxIntList l = maxIntList l' := by
  induction p with
  | nil => rfl
  | cons x _ ih => rw [maxIntList_cons, maxIntList_cons, ih]
  | swap x y l =>
      rw [maxIntList_cons, maxIntList_cons, maxIntList_cons, maxIntList_cons]
      omega
  | trans _ _ ih1 ih2 => exact ih1.trans ih2

theorem filter_keys_eq_self {β : Type} (l : List (Str × β)) (b : Str)
    (hnb : b ∉ l.map (fun e => e.1)) :
    l.filter (fun e => !decide (e.1 = b)) = l := by
  refine List.filter_eq_self.mpr (fun e he => ?_)
  simp only [Bool.not_eq_true', decide_eq_false_iff_not]
  intro h
  exact hnb (h ▸ List.mem_map_of_mem (fun x => x.1) he)

theorem perm_cons_filter {β : Type} (l : List (Str × β)) (b : Str) (v : β)
    (hmem : (b, v) ∈ l) (hnd : (l.map (fun e => e.1)).Nodup) :
    l.Perm ((b, v) :: l.filter (fun e => !decide (e.1 = b))) := by
  induction l with
  | nil => cases hmem
  | cons e rest ih =>
      obtain ⟨k, w⟩ := e
      simp only [List.map_cons, List.nodup_cons] at hnd
      rcases List.mem_cons.mp hmem with he | he
      · injection he with h1 h2
        subst h1
        subst h2
        rw [List.filter_cons, if_neg (by simp)]
        rw [filter_keys_eq_self rest b hnd.1]
      · have hb : b ∈ List.map (fun e => e.1) rest :=
          List.mem_map.mpr ⟨(b, v), he, rfl⟩
        have hkb : ¬ ((k, w).1 = b) := by
          intro h
          apply hnd.1
          have hk : k = b := h
          rw [hk]
          exact hb
        rw [List.filter_cons, if_pos (by simpa using hkb)]
        have ihp := ih he hnd.2
        exact Trans.trans (ihp.cons (k, w)) (List.Perm.swap _ _ _)

theorem secondOf_eq_filter (l : List (Str × Int)) (b : Str)
    (hmem : (b, maxIntList (countsOf l)) ∈ l)
    (hnd : (l.map (fun e => e.1)).Nodup) :
    secondOf l = maxIntList (countsOf (l.filter (fun e => !decide (e.1 = b)))) := by
  have hp := perm_cons_filter l b (maxIntList (countsOf l)) hmem hnd
  have hpc : (countsOf l).Perm
      (maxIntList (countsOf l) :: countsOf (l.filter (fun e => !decide (e.1 = b)))) := by
    have hm := hp.map (fun e => e.2)
    simpa [countsOf] using hm
  unfold secondOf
  have herase := hpc.erase (maxIntList (countsOf l))
  rw [List.erase_cons_head] at herase
  exact maxIntList_perm herase

/-- Loop invariant of the selection loop in `Resolve`: after a nonempty
table the state carries the total, the maximal count, a lex-least maximal
species (nonempty), and as `second` the maximal count among the other
species. -/
theorem resolveLoop_inv (l : List (Str × Int)) (hwf : SpeciesCountsWF l) (hne : l ≠ []) :
    (resolveLoop l).total = totalOf l ∧
    (resolveLoop l).bestCount = maxIntList (countsOf l) ∧
    ((resolveLoop l).best, (resolveLoop l).bestCount) ∈ l ∧
    (resolveLoop l).best ≠ [] ∧
    (∀ e ∈ l, e.2 = (resolveLoop l).bestCount → ltStr e.1 (resolveLoop l).best = false) ∧
    (resolveLoop l).second =
      maxIntList (countsOf (l.filter (fun e => !decide (e.1 = (resolveLoop l).best)))) := by
  induction l using List.reverseRecOn with
  | nil => exact absurd rfl hne
  | append_singleton l' e ih =>
      obtain ⟨s, c⟩ := e
      have hc1 : 1 ≤ c := (hwf.1 (s, c) (List.mem_append_right _ (by simp))).1
      have hsne : s ≠ [] := (hwf.1 (s, c) (List.mem_append_right _ (by simp))).2
      have hwf' : SpeciesCountsWF l' := by
        refine ⟨fun e he => hwf.1 e (List.mem_append_left _ he), ?_⟩
        have h2 := hwf.2
        rw [List.map_append] at h2
        exact h2.of_append_left
      have hsnotin : s ∉ l'.map (fun e => e.1) := by
        have h2 := hwf.2
        rw [List.map_append] at h2
        have h3 := List.nodup_append.mp h2
        intro hmem
        exact h3.2.2 hmem (by simp)
      have hloop : resolveLoop (l' ++ [(s, c)]) = resolveStep (resolveLoop l') (s, c) := by
        simp [resolveLoop, List.foldl_append]
      have hcounts : countsOf (l' ++ [(s, c)]) = countsOf l' ++ [c] := by
        simp [countsOf]
      have htotal : totalOf (l' ++ [(s, c)]) = totalOf l' + c := by
        simp [totalOf, hcounts]
      have hmaxapp : maxIntList (countsOf (l' ++ [(s, c)])) =
          max c (maxIntList (countsOf l')) := by
        rw [hcounts]
        exact maxIntList_append_singleton _ c (by omega)
      by_cases hl' : l' = []
      · subst hl'
        have hstep : resolveStep (resolveLoop []) (s, c) =
            { best := s, bestCount := c, second := -1, total := 0 + c } := by
          unfold resolveLoop resolveStep
          simp only [List.foldl_nil]
          rw [if_pos (Or.inl (by omega))]
        rw [hloop, hstep]
        refine ⟨?_, ?_, ?_, hsne, ?_, ?_⟩
        · simp [totalOf, countsOf]
        · simp only [List.nil_append]
          show c = maxIntList [c]
          unfold maxIntList
          simp only [List.foldr_cons, List.foldr_nil]
          omega
        · simp
        · intro e he _
          simp only [List.nil_append, List.mem_singleton] at he
          subst he
          exact ltStr_irrefl s
        · show (-1 : Int) = maxIntList (countsOf (List.filter _ ([] ++ [(s, c)])))
          simp [countsOf, maxIntList]
      · obtain ⟨iht, ihbc, ihmem, ihbne, ihlex, ihsec⟩ := ih hwf' hl'
        have hbmem : (resolveLoop l').best ∈ l'.map (fun e => e.1) :=
          List.mem_map.mpr ⟨_, ihmem, rfl⟩
        have hsbne : s ≠ (resolveLoop l').best := fun h => hsnotin (h ▸ hbmem)
        have hbemp : (resolveLoop l').best.isEmpty = false := by
          cases hb : (resolveLoop l').best with
          | nil => exact absurd hb ihbne
          | cons x xs => rfl
        by_cases hcond : c > (resolveLoop l').bestCount ∨
            (c = (resolveLoop l').bestCount ∧
              ((resolveLoop l').best.isEmpty = true ∨ ltStr s (resolveLoop l').best = true))
        · have hstep : resolveStep (resolveLoop l') (s, c) =
              { best := s, bestCount := c, second := (resolveLoop l').bestCount,
                total := (resolveLoop l').total + c } := by
            unfold resolveStep
            rw [if_pos hcond]
          have hcge : (resolveLoop l').bestCount ≤ c := by
            rcases hcond with h | h
            · omega
            · omega
          rw [hloop, hstep]
          dsimp only
          refine ⟨?_, ?_, ?_, hsne, ?_, ?_⟩
          · show (resolveLoop l').total + c = totalOf (l' ++ [(s, c)])
            rw [htotal, iht]
          · show c = maxIntList (countsOf (l' ++ [(s, c)]))
            rw [hmaxapp, ← ihbc]
            omega
          · simp
          · intro e he he2
            rcases List.mem_append.mp he with hel | hes
            · rcases hcond with hgt | ⟨heq2, hor⟩
              · exfalso
                have : e.2 ≤ maxIntList (countsOf l') :=
                  le_maxIntList _ _ (List.mem_map.mpr ⟨e, hel, rfl⟩)
                rw [← ihbc] at this
                omega
              · have hlt : ltStr s (resolveLoop l').best = true := by
                  rcases hor with hh | hh
                  · rw [hbemp] at hh
                    exact absurd hh Bool.false_ne_true
                  · exact hh
                have hlexf := ihlex e hel (by omega)
                cases hls : ltStr e.1 s with
                | false => rfl
                | true =>
                    have htr := ltStr_trans e.1 s (resolveLoop l').best hls hlt
                    rw [hlexf] at htr
                    exact absurd htr Bool.false_ne_true
            · simp only [List.mem_singleton] at hes
              subst hes
              exact ltStr_irrefl s
          · show (resolveLoop l').bestCount =
              maxIntList (countsOf (List.filter (fun e => !decide (e.1 = s)) (l' ++ [(s, c)])))
            rw [List.filter_append, filter_keys_eq_self l' s hsnotin]
            have hone : List.filter (fun e => !decide (e.1 = s)) [(s, c)] = [] := by
              simp
            rw [hone, List.append_nil]
            exact ihbc
        · have hcle : c ≤ (resolveLoop l').bestCount := by
            have h1 := (not_or.mp hcond).1
            omega
          have hlexnew : c = (resolveLoop l').bestCount → ltStr s (resolveLoop l').best = false := by
            intro heq2
            cases hls : ltStr s (resolveLoop l').best with
            | false => rfl
            | true => exact absurd (Or.inr ⟨heq2, Or.inr hls⟩) hcond
          have hfl : List.filter (fun e => !decide (e.1 = (resolveLoop l').best))
                (l' ++ [(s, c)]) =
              List.filter (fun e => !decide (e.1 = (resolveLoop l').best)) l' ++ [(s, c)] := by
            rw [List.filter_append]
            congr 1
            simp [hsbne]
          have hflc : countsOf (List.filter (fun e => !decide (e.1 = (resolveLoop l').best))
                (l' ++ [(s, c)])) =
              countsOf (List.filter (fun e => !decide (e.1 = (resolveLoop l').best)) l')
                ++ [c] := by
            rw [hfl]
            simp [countsOf]
          by_cases hsec2 : c > (resolveLoop l').second
          · have hstep : resolveStep (resolveLoop l') (s, c) =
                { best := (resolveLoop l').best, bestCount := (resolveLoop l').bestCount,
                  second := c, total := (resolveLoop l').total + c } := by
              unfold resolveStep
              rw [if_neg hcond, if_pos hsec2]
            rw [hloop, hstep]
            dsimp only
            refine ⟨?_, ?_, ?_, ihbne, ?_, ?_⟩
            · show (resolveLoop l').total + c = totalOf (l' ++ [(s, c)])
              rw [htotal, iht]
            · show (resolveLoop l').bestCount = maxIntList (countsOf (l' ++ [(s, c)]))
              rw [hmaxapp, ← ihbc]
              omega
            · exact List.mem_append_left _ ihmem
            · intro e he he2
              rcases List.mem_append.mp he with hel | hes
              · exact ihlex e hel he2
              · simp only [List.mem_singleton] at hes
                subst hes
                exact hlexnew he2
            · show c = maxIntList (countsOf (List.filter
                  (fun e => !decide (e.1 = (resolveLoop l').best)) (l' ++ [(s, c)])))
              rw [hflc, maxIntList_append_singleton _ c (by omega), ← ihsec]
              omega
          · have hstep : resolveStep (resolveLoop l') (s, c) =
                { best := (resolveLoop l').best, bestCount := (resolveLoop l').bestCount,
                  second := (resolveLoop l').second,
                  total := (resolveLoop l').total + c } := by
              unfold resolveStep
              rw [if_neg hcond, if_neg hsec2]
            rw [hloop, hstep]
            dsimp only
            refine ⟨?_, ?_, ?_, ihbne, ?_, ?_⟩
            · show (resolveLoop l').total + c = totalOf (l' ++ [(s, c)])
              rw [htotal, iht]
            · show (resolveLoop l').bestCount = maxIntList (countsOf (l' ++ [(s, c)]))
              rw [hmaxapp, ← ihbc]
              omega
            · exact List.mem_append_left _ ihmem
            · intro e he he2
              rcases List.mem_append.mp he with hel | hes
              · exact ihlex e hel he2
              · simp only [List.mem_singleton] at hes
                subst hes
                exact hlexnew he2
            · show (resolveLoop l').second = maxIntList (countsOf (List.filter
                  (fun e => !decide (e.1 = (resolveLoop l').best)) (l' ++ [(s, c)])))
              rw [hflc, maxIntList_append_singleton _ c (by omega), ← ihsec]
              omega

theorem resolveBySpecies_two (a b : Str × Int) (t : List (Str × Int)) :
    resolveBySpecies (a :: b :: t) =
      if !(resolveLoop (a :: b :: t)).best.isEmpty ∧
          (resolveLoop (a :: b :: t)).bestCount > (resolveLoop (a :: b :: t)).second ∧
          (resolveLoop (a :: b :: t)).bestCount * 2 > (resolveLoop (a :: b :: t)).total then
        { canonical := (resolveLoop (a :: b :: t)).best, accepted := true }
      else
        { conflict := true } := rfl

theorem resolveBySpecies_not_both (l : List (Str × Int)) :
    ¬((resolveBySpecies l).accepted = true ∧ (resolveBySpecies l).conflict = true) := by
  match l with
  | [] => simp [resolveBySpecies]
  | [(s, c)] => simp [resolveBySpecies]
  | a :: b :: t =>
      rw [resolveBySpecies_two]
      split
      · simp
      · simp

/-- C1: `Resolve` is a three-way function of the observed counts: an absent
or empty BIN yields neither flag; a single observed species is accepted
unconditionally; with two or more species the loop picks the lex-least
species of maximal count and accepts exactly when that count strictly
exceeds the second-highest and is a strict majority of the total, otherwise
it flags conflict; accepted and conflict are never both set. -/
theorem c1_resolve_three_way (U : UOracle) (counts : BinCounts) (binURI : Str)
    (hwf : BinCountsWF counts) :
    ¬((resolverResolve U counts binURI).accepted = true ∧
      (resolverResolve U counts binURI).conflict = true) ∧
    (bioscanNormalizeLabel U binURI = [] ∨
        lookupA counts (bioscanNormalizeLabel U binURI) = none →
      resolverResolve U counts binURI = {}) ∧
    (∀ l, bioscanNormalizeLabel U binURI ≠ [] →
      lookupA counts (bioscanNormalizeLabel U binURI) = some l →
      (l = [] → resolverResolve U counts binURI = {}) ∧
      (∀ s c, l = [(s, c)] →
        resolverResolve U counts binURI =
          { canonical := s, accepted := true, conflict := false }) ∧
      (2 ≤ l.length →
        (((resolveLoop l).best, maxIntList (countsOf l)) ∈ l ∧
          ∀ e ∈ l, e.2 = maxIntList (countsOf l) →
            ltStr e.1 (resolveLoop l).best = false) ∧
        (secondOf l < maxIntList (countsOf l) ∧
            totalOf l < 2 * maxIntList (countsOf l) →
          StrictTop l (resolveLoop l).best (maxIntList (countsOf l)) ∧
          resolverResolve U counts binURI =
            { canonical := (resolveLoop l).best, accepted := true, conflict := false }) ∧
        (¬(secondOf l < maxIntList (countsOf l) ∧
            totalOf l < 2 * maxIntList (countsOf l)) →
          resolverResolve U counts binURI =
            { canonical := [], accepted := false, conflict := true }))) := by
  by_cases hbin : bioscanNormalizeLabel U binURI = []
  · have hres : resolverResolve U counts binURI = {} := by
      unfold resolverResolve
      rw [hbin]
      rfl
    refine ⟨by rw [hres]; simp, fun _ => hres, ?_⟩
    intro l hbne _
    exact absurd hbin hbne
  · have hbe : (bioscanNormalizeLabel U binURI).isEmpty = false := by
      cases hb : bioscanNormalizeLabel U binURI with
      | nil => exact absurd hb hbin
      | cons x xs => rfl
    cases hlk : lookupA counts (bioscanNormalizeLabel U binURI) with
    | none =>
        have hres : resolverResolve U counts binURI = {} := by
          unfold resolverResolve
          simp only [hbe, Bool.false_eq_true, if_false, hlk]
        refine ⟨by rw [hres]; simp, fun _ => hres, ?_⟩
        intro l _ hlk2
        cases hlk2
    | some tbl =>
        have hres : resolverResolve U counts binURI = resolveBySpecies tbl := by
          unfold resolverResolve
          simp only [hbe, Bool.false_eq_true, if_false, hlk]
        have hwft : SpeciesCountsWF tbl :=
          hwf (bioscanNormalizeLabel U binURI, tbl) (lookupA_some_mem _ _ _ hlk)
        refine ⟨by rw [hres]; exact resolveBySpecies_not_both tbl, ?_, ?_⟩
        · intro hd
          rcases hd with hd | hd
          · exact absurd hd hbin
          · cases hd
        · intro l _ hlk2
          injection hlk2 with hlk3
          subst hlk3
          refine ⟨?_, ?_, ?_⟩
          · intro hnil
            subst hnil
            rw [hres]
            rfl
          · intro s c hone
            subst hone
            rw [hres]
            rfl
          · intro hlen
            obtain _ | ⟨a, rest⟩ := tbl
            · exact absurd hlen (by simp)
            obtain _ | ⟨b, t⟩ := rest
            · exact absurd hlen (by simp)
            have hlne : a :: b :: t ≠ [] := by simp
            obtain ⟨iht, ihbc, ihmem, ihbne, ihlex, ihsec⟩ :=
              resolveLoop_inv (a :: b :: t) hwft hlne
            have hbemp : (!(resolveLoop (a :: b :: t)).best.isEmpty) = true := by
              cases hb : (resolveLoop (a :: b :: t)).best with
              | nil => exact absurd hb ihbne
              | cons x xs => rfl
            have hsecond : (resolveLoop (a :: b :: t)).second = secondOf (a :: b :: t) := by
              rw [ihsec]
              refine (secondOf_eq_filter (a :: b :: t) (resolveLoop (a :: b :: t)).best
                ?_ hwft.2).symm
              rw [← ihbc]
              exact ihmem
            refine ⟨⟨by rw [← ihbc]; exact ihmem, ?_⟩, ?_, ?_⟩
            · intro e he he2
              exact ihlex e he (by rw [ihbc]; exact he2)
            · intro hacc
              have hcnd : (!(resolveLoop (a :: b :: t)).best.isEmpty) = true ∧
                  (resolveLoop (a :: b :: t)).bestCount > (resolveLoop (a :: b :: t)).second ∧
                  (resolveLoop (a :: b :: t)).bestCount * 2 >
                    (resolveLoop (a :: b :: t)).total := by
                refine ⟨hbemp, ?_, ?_⟩
                · rw [hsecond, ihbc]
                  exact hacc.1
                · rw [ihbc, iht]
                  have := hacc.2
                  omega
              constructor
              · refine ⟨by rw [← ihbc]; exact ihmem, ?_⟩
                intro e he hene
                have hef : e ∈ List.filter
                    (fun x => !decide (x.1 = (resolveLoop (a :: b :: t)).best))
                    (a :: b :: t) :=
                  List.mem_filter.mpr ⟨he, by simpa using hene⟩
                have hec : e.2 ≤ maxIntList (countsOf (List.filter
                    (fun x => !decide (x.1 = (resolveLoop (a :: b :: t)).best))
                    (a :: b :: t))) :=
                  le_maxIntList _ _ (List.mem_map.mpr ⟨e, hef, rfl⟩)
                rw [← ihsec, hsecond] at hec
                have := hacc.1
                omega
              · rw [hres, resolveBySpecies_two, if_pos hcnd]
            · intro hrej
              have hcnd : ¬((!(resolveLoop (a :: b :: t)).best.isEmpty) = true ∧
                  (resolveLoop (a :: b :: t)).bestCount > (resolveLoop (a :: b :: t)).second ∧
                  (resolveLoop (a :: b :: t)).bestCount * 2 >
                    (resolveLoop (a :: b :: t)).total) := by
                intro hc
                apply hrej
                constructor
                · rw [← hsecond, ← ihbc]
                  exact hc.2.1
                · rw [← ihbc, ← iht]
                  have := hc.2.2
                  omega
              rw [hres, resolveBySpecies_two, if_neg hcnd]

theorem c1_resolve_three_way_witness :
    resolverResolve asciiU
        [( "B1".toList, [( "Aus bus".toList, (3 : Int)), ( "Aus cus".toList, 1)])]
        ( "B1".toList) =
      { canonical := ( "Aus bus".toList), accepted := true, conflict := false } := by
  have h := c1_resolve_three_way asciiU
      [( "B1".toList, [( "Aus bus".toList, (3 : Int)), ( "Aus cus".toList, 1)])]
      ( "B1".toList)
      (by
        intro p hp
        simp only [List.mem_singleton] at hp
        subst hp
        exact ⟨by decide, by decide⟩)
  have h2 := (h.2.2 [( "Aus bus".toList, (3 : Int)), ( "Aus cus".toList, 1)]
      (by decide) (by decide)).2.2 (by decide)
  have h3 := (h2.2.1 (by decide)).2
  rw [h3]
  rfl

/-! ## Taxonomy pruning (C6) -/

theorem stops_mono (nodes : List (Int × Int)) :
    ∀ fuel fuel' (c : Int), stopsWithin nodes fuel c = true → fuel ≤ fuel' →
      stopsWithin nodes fuel' c = true := by
  intro fuel
  induction fuel with
  | zero =>
      intro fuel' c h _
      simp [stopsWithin] at h
  | succ f ih =>
      intro fuel' c h hle
      cases fuel' with
      | zero => omega
      | succ f' =>
          by_cases hc : c ≤ 0
          · simp [stopsWithin, hc]
          · cases hlk : lookupA nodes c with
            | none => simp [stopsWithin, hc, hlk]
            | some p =>
                simp only [stopsWithin, hlk, if_neg hc] at h ⊢
                by_cases hp : p = c ∨ p ≤ 0
                · rw [if_pos hp]
                · rw [if_neg hp] at h ⊢
                  exact ih f' p h (by omega)

theorem chain_stable (nodes : List (Int × Int)) :
    ∀ fuel fuel' (c : Int), stopsWithin nodes fuel c = true → fuel ≤ fuel' →
      taxChain nodes fuel' c = taxChain nodes fuel c := by
  intro fuel
  induction fuel with
  | zero =>
      intro fuel' c h _
      simp [stopsWithin] at h
  | succ f ih =>
      intro fuel' c h hle
      cases fuel' with
      | zero => omega
      | succ f' =>
          by_cases hc : c ≤ 0
          · simp [taxChain, hc]
          · cases hlk : lookupA nodes c with
            | none => simp [taxChain, hc, hlk]
            | some p =>
                simp only [stopsWithin, hlk, if_neg hc] at h
                simp only [taxChain, hlk, if_neg hc]
                by_cases hp : p = c ∨ p ≤ 0
                · rw [if_pos hp, if_pos hp]
                · rw [if_neg hp] at h
                  rw [if_neg hp, if_neg hp, ih f' p h (by omega)]

theorem chain_suffix (nodes : List (Int × Int)) :
    ∀ fuel (c x : Int), stopsWithin nodes fuel c = true → x ∈ taxChain nodes fuel c →
      ∃ k pre, k ≤ fuel ∧ stopsWithin nodes k x = true ∧
        taxChain nodes fuel c = pre ++ taxChain nodes k x := by
  intro fuel
  induction fuel with
  | zero =>
      intro c x h _
      simp [stopsWithin] at h
  | succ f ih =>
      intro c x h hx
      by_cases hc : c ≤ 0
      · simp [taxChain, hc] at hx
      · cases hlk : lookupA nodes c with
        | none =>
            simp only [taxChain, hlk, if_neg hc] at hx
            simp only [List.mem_singleton] at hx
            subst hx
            exact ⟨f + 1, [], le_refl _, h, rfl⟩
        | some p =>
            simp only [taxChain, hlk, if_neg hc] at hx
            simp only [stopsWithin, hlk, if_neg hc] at h
            by_cases hp : p = c ∨ p ≤ 0
            · rw [if_pos hp] at hx
              simp only [List.mem_singleton] at hx
              subst hx
              refine ⟨f + 1, [], le_refl _, ?_, rfl⟩
              simp only [stopsWithin, hlk, if_neg hc]
              rw [if_pos hp]
            · rw [if_neg hp] at hx h
              rcases List.mem_cons.mp hx with hxc | hxs
              · subst hxc
                refine ⟨f + 1, [], le_refl _, ?_, rfl⟩
                simp only [stopsWithin, hlk, if_neg hc]
                rw [if_neg hp]
                exact h
              · obtain ⟨k, pre, hk, hsx, heq⟩ := ih p x h hxs
                refine ⟨k, c :: pre, by omega, hsx, ?_⟩
                simp only [taxChain, hlk, if_neg hc]
                rw [if_neg hp, heq]
                rfl

theorem stops_nodup (nodes : List (Int × Int)) :
    ∀ fuel (c : Int), stopsWithin nodes fuel c = true → (taxChain nodes fuel c).Nodup := by
  intro fuel
  induction fuel with
  | zero =>
      intro c h
      simp [stopsWithin] at h
  | succ f ih =>
      intro c h
      by_cases hc : c ≤ 0
      · simp [taxChain, hc]
      · cases hlk : lookupA nodes c with
        | none => simp [taxChain, hc, hlk]
        | some p =>
            simp only [stopsWithin, hlk, if_neg hc] at h
            simp only [taxChain, hlk, if_neg hc]
            by_cases hp : p = c ∨ p ≤ 0
            · rw [if_pos hp]
              simp
            · rw [if_neg hp] at h ⊢
              refine List.nodup_cons.mpr ⟨?_, ih p h⟩
              intro hmem
              obtain ⟨k, pre, hk, hsc, heq⟩ := chain_suffix nodes f p c h hmem
              have hstab : taxChain nodes (f + 1) c = taxChain nodes k c :=
                chain_stable nodes k (f + 1) c hsc (by omega)
              have hstep : taxChain nodes (f + 1) c = c :: taxChain nodes f p := by
                simp only [taxChain, hlk, if_neg hc]
                rw [if_neg hp]
              have hlen : (taxChain nodes k c).length =
                  1 + pre.length + (taxChain nodes k c).length := by
                have h1 : (taxChain nodes (f + 1) c).length =
                    1 + (taxChain nodes f p).length := by
                  rw [hstep]
                  simp
                  omega
                rw [hstab] at h1
                rw [heq] at h1
                simp at h1
                omega
              omega

/-- The early-stopping keep walk adds exactly the full chain of its start,
provided every kept id either has its full chain kept (`C`) or lies on the
current top-level chain with the rest of its chain covered (`P`). -/
theorem keepWalk_char (nodes : List (Int × Int)) :
    ∀ fuel (cur : Int) (keep : List Int) (C P : Int → Prop),
      fuel ≤ 128 →
      stopsWithin nodes fuel cur = true →
      (taxChain nodes fuel cur).Nodup →
      (∀ y, C y → ∀ x ∈ taxChain nodes 128 y, C x) →
      (∀ y, P y → ∀ x ∈ taxChain nodes 128 y, P x ∨ x ∈ taxChain nodes fuel cur) →
      (∀ x ∈ taxChain nodes fuel cur, ¬ P x) →
      (∀ x, x ∈ keep ↔ C x ∨ P x) →
      ∀ x, x ∈ keepWalk nodes fuel cur keep ↔ x ∈ keep ∨ x ∈ taxChain nodes fuel cur := by
  intro fuel
  induction fuel with
  | zero =>
      intro cur keep C P _ hst _ _ _ _ _ _
      simp [stopsWithin] at hst
  | succ f ih =>
      intro cur keep C P hf hst hnd hC hP hdisj hkeep x
      by_cases hc : cur ≤ 0
      · simp [keepWalk, taxChain, hc]
      · have hcurmem : cur ∈ taxChain nodes (f + 1) cur := by
          simp only [taxChain, if_neg hc]
          exact List.mem_cons_self _ _
        cases hcont : keep.contains cur with
        | true =>
            have hcin : cur ∈ keep := List.elem_iff.mp hcont
            have hCcur : C cur := by
              rcases (hkeep cur).mp hcin with h | h
              · exact h
              · exact absurd h (hdisj cur hcurmem)
            have hstable : taxChain nodes 128 cur = taxChain nodes (f + 1) cur :=
              chain_stable nodes (f + 1) 128 cur hst (by omega)
            have hwalk : keepWalk nodes (f + 1) cur keep = keep := by
              simp only [keepWalk, if_neg hc]
              rw [hcont]
              simp
            rw [hwalk]
            constructor
            · intro h
              exact Or.inl h
            · intro h
              rcases h with h | h
              · exact h
              · have hx128 : x ∈ taxChain nodes 128 cur := by
                  rw [hstable]
                  exact h
                exact (hkeep x).mpr (Or.inl (hC cur hCcur x hx128))
        | false =>
            have hwalk1 : keepWalk nodes (f + 1) cur keep =
                (match lookupA nodes cur with
                  | none => cur :: keep
                  | some p => if p = cur ∨ p ≤ 0 then cur :: keep
                      else keepWalk nodes f p (cur :: keep)) := by
              simp only [keepWalk, if_neg hc]
              rw [hcont]
              simp
            cases hlk : lookupA nodes cur with
            | none =>
                rw [hwalk1]
                simp only [hlk]
                simp only [taxChain, hlk, if_neg hc]
                simp [List.mem_cons, or_comm]
            | some p =>
                rw [hwalk1]
                simp only [hlk]
                by_cases hp : p = cur ∨ p ≤ 0
                · rw [if_pos hp]
                  simp only [taxChain, hlk, if_neg hc]
                  rw [if_pos hp]
                  simp [List.mem_cons, or_comm]
                · rw [if_neg hp]
                  have hchain : taxChain nodes (f + 1) cur = cur :: taxChain nodes f p := by
                    simp only [taxChain, hlk, if_neg hc]
                    rw [if_neg hp]
                  have hst' : stopsWithin nodes f p = true := by
                    simp only [stopsWithin, hlk, if_neg hc] at hst
                    rw [if_neg hp] at hst
                    exact hst
                  have hnd' : (taxChain nodes f p).Nodup := by
                    rw [hchain] at hnd
                    exact (List.nodup_cons.mp hnd).2
                  have hcurnot : cur ∉ taxChain nodes f p := by
                    rw [hchain] at hnd
                    exact (List.nodup_cons.mp hnd).1
                  have hstable : taxChain nodes 128 cur = taxChain nodes (f + 1) cur :=
                    chain_stable nodes (f + 1) 128 cur hst (by omega)
                  have hiff := ih p (cur :: keep) C (fun z => P z ∨ z = cur)
                    (by omega) hst' hnd'
                    hC
                    (by
                      intro y hy z hz
                      rcases hy with hy | hy
                      · rcases hP y hy z hz with h1 | h1
                        · exact Or.inl (Or.inl h1)
                        · rw [hchain] at h1
                          rcases List.mem_cons.mp h1 with h2 | h2
                          · exact Or.inl (Or.inr h2)
                          · exact Or.inr h2
                      · subst hy
                        rw [hstable, hchain] at hz
                        rcases List.mem_cons.mp hz with h2 | h2
                        · exact Or.inl (Or.inr h2)
                        · exact Or.inr h2)
                    (by
                      intro z hz hPz
                      rcases hPz with h1 | h1
                      · exact hdisj z (by rw [hchain]; exact List.mem_cons_of_mem _ hz) h1
                      · subst h1
                        exact hcurnot hz)
                    (by
                      intro z
                      constructor
                      · intro hz
                        rcases List.mem_cons.mp hz with h1 | h1
                        · exact Or.inr (Or.inr h1)
                        · rcases (hkeep z).mp h1 with h2 | h2
                          · exact Or.inl h2
                          · exact Or.inr (Or.inl h2)
                      · intro hz
                        rcases hz with h1 | h1 | h1
                        · exact List.mem_cons_of_mem _ ((hkeep z).mpr (Or.inl h1))
                        · exact List.mem_cons_of_mem _ ((hkeep z).mpr (Or.inr h1))
                        · subst h1
                          exact List.mem_cons_self _ _)
                    x
                  rw [hiff, hchain]
                  constructor
                  · intro h
                    rcases h with h | h
                    · rcases List.mem_cons.mp h with h1 | h1
                      · subst h1
                        exact Or.inr (List.mem_cons_self _ _)
                      · exact Or.inl h1
                    · exact Or.inr (List.mem_cons_of_mem _ h)
                  · intro h
                    rcases h with h | h
                    · exact Or.inl (List.mem_cons_of_mem _ h)
                    · rcases List.mem_cons.mp h with h1 | h1
                      · subst h1
                        exact Or.inl (List.mem_cons_self _ _)
                      · exact Or.inr h1

theorem pruneKeep_char (tmap : List (Str × Int)) (nodes : List (Int × Int)) :
    ∀ (pids : List Str) (keep : List Int),
      (∀ pid ∈ pids, ∃ t, lookupA tmap pid = some t ∧ stopsWithin nodes 128 t = true) →
      (∀ y ∈ keep, ∀ x ∈ taxChain nodes 128 y, x ∈ keep) →
      ∃ keepF, pruneKeep tmap nodes pids keep = .ok keepF ∧
        ∀ x, x ∈ keepF ↔ x ∈ keep ∨
          ∃ pid ∈ pids, ∃ t, lookupA tmap pid = some t ∧ x ∈ taxChain nodes 128 t := by
  intro pids
  induction pids with
  | nil =>
      intro keep _ _
      exact ⟨keep, rfl, by simp⟩
  | cons pid rest ih =>
      intro keep hall hcl
      obtain ⟨t, hlkp, hstp⟩ := hall pid (List.mem_cons_self _ _)
      have hwalk := keepWalk_char nodes 128 t keep (fun z => z ∈ keep) (fun _ => False)
        (le_refl _) hstp (stops_nodup nodes 128 t hstp)
        (fun y hy z hz => hcl y hy z hz)
        (fun y hy => hy.elim)
        (fun _ _ h => h)
        (fun z => by simp)
      have hcl' : ∀ y ∈ keepWalk nodes 128 t keep, ∀ z ∈ taxChain nodes 128 y,
          z ∈ keepWalk nodes 128 t keep := by
        intro y hy z hz
        rcases (hwalk y).mp hy with h1 | h1
        · exact (hwalk z).mpr (Or.inl (hcl y h1 z hz))
        · obtain ⟨k, pre, hk, hsy, heq⟩ := chain_suffix nodes 128 t y hstp h1
          have hzk : z ∈ taxChain nodes k y := by
            rw [chain_stable nodes k 128 y hsy hk] at hz
            exact hz
          refine (hwalk z).mpr (Or.inr ?_)
          rw [heq]
          exact List.mem_append_right _ hzk
      obtain ⟨keepF, hok, hiff⟩ := ih (keepWalk nodes 128 t keep)
        (fun p hp => hall p (List.mem_cons_of_mem _ hp)) hcl'
      refine ⟨keepF, ?_, ?_⟩
      · simp only [pruneKeep, hlkp]
        exact hok
      · intro x
        rw [hiff x, hwalk x]
        constructor
        · rintro ((h | h) | h)
          · exact Or.inl h
          · exact Or.inr ⟨pid, List.mem_cons_self _ _, t, hlkp, h⟩
          · obtain ⟨p2, hp2, t2, hl2, hx2⟩ := h
            exact Or.inr ⟨p2, List.mem_cons_of_mem _ hp2, t2, hl2, hx2⟩
        · rintro (h | ⟨p2, hp2, t2, hl2, hx2⟩)
          · exact Or.inl (Or.inl h)
          · rcases List.mem_cons.mp hp2 with h1 | h1
            · subst h1
              rw [hlkp] at hl2
              injection hl2 with hl3
              subst hl3
              exact Or.inl (Or.inr hx2)
            · exact Or.inr ⟨p2, h1, t2, hl2, hx2⟩

theorem pruneKeep_missing (tmap : List (Str × Int)) (nodes : List (Int × Int)) :
    ∀ (pids : List Str) (keep : List Int),
      (∃ pid ∈ pids, lookupA tmap pid = none) →
      ∃ pid, pid ∈ pids ∧ lookupA tmap pid = none ∧
        pruneKeep tmap nodes pids keep = .error pid := by
  intro pids
  induction pids with
  | nil =>
      intro keep h
      obtain ⟨pid, hp, _⟩ := h
      cases hp
  | cons pid rest ih =>
      intro keep h
      cases hlk : lookupA tmap pid with
      | none =>
          exact ⟨pid, List.mem_cons_self _ _, hlk, by simp only [pruneKeep, hlk]⟩
      | some t =>
          obtain ⟨p2, hp2, hl2⟩ := h
          have hp2r : p2 ∈ rest := by
            rcases List.mem_cons.mp hp2 with h1 | h1
            · subst h1
              rw [hlk] at hl2
              cases hl2
            · exact h1
          obtain ⟨p3, hp3, hl3, he3⟩ := ih (keepWalk nodes 128 t keep) ⟨p2, hp2r, hl2⟩
          refine ⟨p3, List.mem_cons_of_mem _ hp3, hl3, ?_⟩
          simp only [pruneKeep, hlk]
          exact he3

/-- C6: with every seen_train processid mapped to a taxid whose parent walk
reaches a natural stop within 128 hops, pruning succeeds and keeps exactly
the union of the full ancestor chains of the mapped taxids — every walked id
and nothing else; an empty seen_train set is rejected, and a processid
missing from the taxid map makes the operation fail naming a missing id. -/
theorem c6_taxonomy_prune_keep (tmap : List (Str × Int)) (nodes : List (Int × Int))
    (pids : List Str) :
    (pids = [] → pruneTaxdumpForSeenTrain tmap nodes pids = .error []) ∧
    ((∀ pid ∈ pids, ∃ t, lookupA tmap pid = some t ∧ stopsWithin nodes 128 t = true) →
      pids ≠ [] →
      ∃ keep, pruneTaxdumpForSeenTrain tmap nodes pids = .ok keep ∧
        ∀ x, x ∈ keep ↔
          ∃ pid ∈ pids, ∃ t, lookupA tmap pid = some t ∧ x ∈ taxChain nodes 128 t) ∧
    ((∃ pid ∈ pids, lookupA tmap pid = none) →
      ∃ pid, pid ∈ pids ∧ lookupA tmap pid = none ∧
        pruneTaxdumpForSeenTrain tmap nodes pids = .error pid) := by
  refine ⟨?_, ?_, ?_⟩
  · intro h
    subst h
    rfl
  · intro hall hne
    have hie : pids.isEmpty = false := by
      cases pids with
      | nil => exact absurd rfl hne
      | cons a b => rfl
    obtain ⟨keepF, hok, hiff⟩ := pruneKeep_char tmap nodes pids []
      hall (by intro y hy; cases hy)
    refine ⟨keepF, ?_, ?_⟩
    · unfold pruneTaxdumpForSeenTrain
      rw [hie]
      simpa using hok
    · intro x
      rw [hiff x]
      simp
  · intro hmiss
    have hne : pids ≠ [] := by
      obtain ⟨pid, hp, _⟩ := hmiss
      intro h
      subst h
      cases hp
    have hie : pids.isEmpty = false := by
      cases pids with
      | nil => exact absurd rfl hne
      | cons a b => rfl
    obtain ⟨pid, hp, hl, he⟩ := pruneKeep_missing tmap nodes pids [] hmiss
    refine ⟨pid, hp, hl, ?_⟩
    unfold pruneTaxdumpForSeenTrain
    rw [hie]
    simpa using he

theorem c6_taxonomy_prune_keep_witness :
    ∃ keep, pruneTaxdumpForSeenTrain [( "P1".toList, 5)] [(5, 2), (2, 1), (1, 1)]
        [( "P1".toList)] = .ok keep ∧
      ∀ x, x ∈ keep ↔ ∃ pid ∈ [( "P1".toList)], ∃ t,
        lookupA [( "P1".toList, 5)] pid = some t ∧
        x ∈ taxChain [(5, 2), (2, 1), (1, 1)] 128 t := by
  have h := c6_taxonomy_prune_keep [( "P1".toList, 5)] [(5, 2), (2, 1), (1, 1)]
    [( "P1".toList)]
  refine h.2.1 ?_ (by decide)
  intro pid hp
  simp only [List.mem_singleton] at hp
  subst hp
  exact ⟨5, by decide, by decide⟩

/-! ## Order-independence of the split plan (C4) -/

theorem lookupA_append {α β : Type} [DecidableEq α] (l1 l2 : List (α × β)) (a : α) :
    lookupA (l1 ++ l2) a =
      match lookupA l1 a with
      | some v => some v
      | none => lookupA l2 a := by
  induction l1 with
  | nil => simp [lookupA]
  | cons e rest ih =>
      obtain ⟨k, v⟩ := e
      by_cases hk : a = k
      · simp [lookupA, hk]
      · simp only [List.cons_append, lookupA, if_neg hk]
        exact ih

theorem mem_lookupA_nodup {α β : Type} [DecidableEq α] (l : List (α × β))
    (hnd : (l.map Prod.fst).Nodup) (a : α) (b : β) (hmem : (a, b) ∈ l) :
    lookupA l a = some b := by
  induction l with
  | nil => cases hmem
  | cons e rest ih =>
      obtain ⟨k, v⟩ := e
      simp only [List.map_cons, List.nodup_cons] at hnd
      rcases List.mem_cons.mp hmem with he | he
      · injection he with h1 h2
        subst h1
        subst h2
        simp [lookupA]
      · have hak : ¬ a = k := by
          intro h
          subst h
          exact hnd.1 (List.mem_map.mpr ⟨(a, b), he, rfl⟩)
        simp only [lookupA, if_neg hak]
        exact ih hnd.2 he

theorem contains_congr {α : Type} [BEq α] [LawfulBEq α]
    (l1 l2 : List α) (a : α) (h : a ∈ l1 ↔ a ∈ l2) :
    l1.contains a = l2.contains a := by
  cases h1 : l1.contains a with
  | true =>
      have hm : a ∈ l1 := List.elem_iff.mp h1
      exact (List.elem_iff.mpr (h.mp hm)).symm
  | false =>
      cases h2 : l2.contains a with
      | true =>
          have hm : a ∈ l2 := List.elem_iff.mp h2
          have h3 : l1.contains a = true := List.elem_iff.mpr (h.mpr hm)
          rw [h1] at h3
          cases h3
      | false => rfl

theorem sorted_units_unique :
    ∀ (l1 l2 : List BarcodeUnit), l1.Perm l2 → l1.Sorted unitLe → l2.Sorted unitLe →
      (l1.map (fun u => u.hash)).Nodup → l1 = l2 := by
  intro l1
  induction l1 with
  | nil =>
      intro l2 hp _ _ _
      exact (List.Perm.nil_eq hp).symm ▸ rfl
  | cons a t1 ih =>
      intro l2 hp hs1 hs2 hnd
      cases l2 with
      | nil => exact absurd hp.symm (by simp)
      | cons b t2 =>
          have hab : a = b := by
            have hbmem : b ∈ a :: t1 := hp.mem_iff.mpr (List.mem_cons_self _ _)
            rcases List.mem_cons.mp hbmem with h1 | h1
            · exact h1.symm
            · have hamem : a ∈ b :: t2 := hp.mem_iff.mp (List.mem_cons_self _ _)
              rcases List.mem_cons.mp hamem with h2 | h2
              · exact h2
              · have hle1 : unitLe a b := (List.sorted_cons.mp hs1).1 b h1
                have hle2 : unitLe b a := (List.sorted_cons.mp hs2).1 a h2
                have hhash : a.hash = b.hash := le_antisymm hle1 hle2
                exfalso
                simp only [List.map_cons, List.nodup_cons] at hnd
                exact hnd.1 (by rw [hhash]; exact List.mem_map.mpr ⟨b, h1, rfl⟩)
          subst hab
          have hpt : t1.Perm t2 := hp.cons_inv
          have ht := ih t2 hpt (List.sorted_cons.mp hs1).2 (List.sorted_cons.mp hs2).2
            (by simp only [List.map_cons, List.nodup_cons] at hnd; exact hnd.2)
          rw [ht]

theorem unitsFor_hash_nodup (ctx : SplitCtx) (records : List FastaRec) (L : Str) :
    ((unitsFor (pass1 ctx records).groups L).map (fun u => u.hash)).Nodup := by
  unfold unitsFor
  rw [List.map_map]
  exact ((List.filter_sublist _).map Prod.fst).nodup (pass1_groups_keys_nodup ctx records)

theorem unitsFor_nodup (ctx : SplitCtx) (records : List FastaRec) (L : Str) :
    (unitsFor (pass1 ctx records).groups L).Nodup :=
  (unitsFor_hash_nodup ctx records L).of_map

theorem mem_unitsFor_iff (ctx : SplitCtx) (records : List FastaRec) (L : Str)
    (u : BarcodeUnit) :
    u ∈ unitsFor (pass1 ctx records).groups L ↔
      (classRecs ctx records u.hash ≠ [] ∧
       (∀ r ∈ classRecs ctx records u.hash, lookupA ctx.labels r.pid = some L) ∧
       u.count = (classRecs ctx records u.hash).length) := by
  obtain ⟨uh, uc⟩ := u
  constructor
  · intro hu
    unfold unitsFor at hu
    obtain ⟨⟨h, g⟩, hf, he⟩ := List.mem_map.mp hu
    have hfil := List.mem_filter.mp hf
    have hcond := hfil.2
    simp only [Bool.and_eq_true, Bool.not_eq_true', decide_eq_true_eq] at hcond
    have hlk : lookupA (pass1 ctx records).groups h = some g :=
      mem_lookupA_nodup _ (pass1_groups_keys_nodup ctx records) h g hfil.1
    obtain ⟨hne, hcount, ⟨r0, hr0, hlab0⟩, hconf⟩ :=
      (pass1_groups_char ctx records h).2 g hlk
    injection he with he1 he2
    subst he1
    subst he2
    dsimp only
    refine ⟨hne, ?_, hcount⟩
    intro r hr
    rw [hconf.mp hcond.1 r hr, hcond.2]
  · rintro ⟨hne, hall, hcnt⟩
    cases hlk : lookupA (pass1 ctx records).groups uh with
    | none => exact absurd ((pass1_groups_char ctx records uh).1 hlk) hne
    | some g =>
        obtain ⟨_, hcount, ⟨r0, hr0, hlab0⟩, hconf⟩ :=
          (pass1_groups_char ctx records uh).2 g hlk
        have hlabL : g.label = L := by
          have h1 := hall r0 hr0
          rw [hlab0] at h1
          exact Option.some.inj h1
        have hcf : g.conflict = false := by
          refine hconf.mpr (fun r hr => ?_)
          rw [hall r hr, hlabL]
        have hmemg : (uh, g) ∈ (pass1 ctx records).groups := lookupA_some_mem _ _ _ hlk
        unfold unitsFor
        refine List.mem_map.mpr ⟨(uh, g), List.mem_filter.mpr ⟨hmemg, ?_⟩, ?_⟩
        · simp [hcf, hlabL]
        · show ({ hash := uh, count := g.count } : BarcodeUnit) = ⟨uh, uc⟩
          rw [hcount, ← hcnt]

theorem mem_labelsOf_iff (ctx : SplitCtx) (records : List FastaRec) (L : Str) :
    L ∈ labelsOf (pass1 ctx records).groups ↔
      ∃ h, classRecs ctx records h ≠ [] ∧
        ∀ r ∈ classRecs ctx records h, lookupA ctx.labels r.pid = some L := by
  unfold labelsOf
  rw [List.mem_dedup]
  constructor
  · intro hm
    obtain ⟨⟨h, g⟩, hf, he⟩ := List.mem_map.mp hm
    have hfil := List.mem_filter.mp hf
    have hcond := hfil.2
    simp only [Bool.not_eq_true', ] at hcond
    have hlk : lookupA (pass1 ctx records).groups h = some g :=
      mem_lookupA_nodup _ (pass1_groups_keys_nodup ctx records) h g hfil.1
    obtain ⟨hne, _, ⟨r0, hr0, hlab0⟩, hconf⟩ :=
      (pass1_groups_char ctx records h).2 g hlk
    refine ⟨h, hne, fun r hr => ?_⟩
    rw [hconf.mp hcond r hr, he]
  · rintro ⟨h, hne, hall⟩
    cases hlk : lookupA (pass1 ctx records).groups h with
    | none => exact absurd ((pass1_groups_char ctx records h).1 hlk) hne
    | some g =>
        obtain ⟨_, _, ⟨r0, hr0, hlab0⟩, hconf⟩ :=
          (pass1_groups_char ctx records h).2 g hlk
        have hlabL : g.label = L := by
          have h1 := hall r0 hr0
          rw [hlab0] at h1
          exact Option.some.inj h1
        have hcf : g.conflict = false := by
          refine hconf.mpr (fun r hr => ?_)
          rw [hall r hr, hlabL]
        have hmemg : (h, g) ∈ (pass1 ctx records).groups := lookupA_some_mem _ _ _ hlk
        refine List.mem_map.mpr ⟨(h, g), List.mem_filter.mpr ⟨hmemg, ?_⟩, hlabL⟩
        simp [hcf]

theorem classRecs_perm (ctx : SplitCtx) {records1 records2 : List FastaRec}
    (hp : records1.Perm records2) (h : Hash) :
    (classRecs ctx records1 h).Perm (classRecs ctx records2 h) :=
  hp.filter _

theorem unitsFor_perm (ctx : SplitCtx) {records1 records2 : List FastaRec}
    (hp : records1.Perm records2) (L : Str) :
    (unitsFor (pass1 ctx records1).groups L).Perm
      (unitsFor (pass1 ctx records2).groups L) := by
  refine (List.perm_ext_iff_of_nodup (unitsFor_nodup ctx records1 L)
    (unitsFor_nodup ctx records2 L)).mpr ?_
  intro u
  rw [mem_unitsFor_iff, mem_unitsFor_iff]
  have hcp := classRecs_perm ctx hp u.hash
  constructor
  · rintro ⟨hne, hall, hcnt⟩
    refine ⟨?_, ?_, ?_⟩
    · intro h0
      rw [h0] at hcp
      exact hne hcp.eq_nil
    · intro r hr
      exact hall r (hcp.mem_iff.mpr hr)
    · rw [hcnt]
      exact hcp.length_eq
  · rintro ⟨hne, hall, hcnt⟩
    refine ⟨?_, ?_, ?_⟩
    · intro h0
      rw [h0] at hcp
      exact hne hcp.symm.eq_nil
    · intro r hr
      exact hall r (hcp.mem_iff.mp hr)
    · rw [hcnt, hcp.length_eq]
  
theorem totalFor_congr (ctx : SplitCtx) {records1 records2 : List FastaRec}
    (hp : records1.Perm records2) (L : Str) :
    totalFor (pass1 ctx records1).groups L = totalFor (pass1 ctx records2).groups L := by
  unfold totalFor
  exact ((unitsFor_perm ctx hp L).map _).sum_eq

theorem sortUnits_eq_of_perm (u1 u2 : List BarcodeUnit) (hp : u1.Perm u2)
    (hnd : (u1.map (fun u => u.hash)).Nodup) :
    sortUnits u1 = sortUnits u2 := by
  refine sorted_units_unique (sortUnits u1) (sortUnits u2) ?_ ?_ ?_ ?_
  · exact (List.perm_insertionSort unitLe u1).trans
      (hp.trans (List.perm_insertionSort unitLe u2).symm)
  · exact List.sorted_insertionSort unitLe u1
  · exact List.sorted_insertionSort unitLe u2
  · exact (((List.perm_insertionSort unitLe u1).map (fun u => u.hash)).nodup_iff).mpr hnd

theorem planForLabel_congr (ctx : SplitCtx) (L : Str) (u1 u2 : List BarcodeUnit) (t : Nat)
    (hsort : sortUnits u1 = sortUnits u2) (hlen : u1.length = u2.length) :
    planForLabel ctx L u1 t = planForLabel ctx L u2 t := by
  unfold planForLabel
  rw [hsort, hlen]

theorem planBlock_congr (ctx : SplitCtx) {records1 records2 : List FastaRec}
    (hp : records1.Perm records2) (L : Str) :
    planForLabel ctx L (unitsFor (pass1 ctx records1).groups L)
        (totalFor (pass1 ctx records1).groups L) =
      planForLabel ctx L (unitsFor (pass1 ctx records2).groups L)
        (totalFor (pass1 ctx records2).groups L) := by
  rw [← totalFor_congr ctx hp L]
  exact planForLabel_congr ctx L _ _ _
    (sortUnits_eq_of_perm _ _ (unitsFor_perm ctx hp L) (unitsFor_hash_nodup ctx records1 L))
    (unitsFor_perm ctx hp L).length_eq

theorem mem_labelsOf_congr (ctx : SplitCtx) {records1 records2 : List FastaRec}
    (hp : records1.Perm records2) (L : Str) :
    L ∈ labelsOf (pass1 ctx records1).groups ↔ L ∈ labelsOf (pass1 ctx records2).groups := by
  rw [mem_labelsOf_iff, mem_labelsOf_iff]
  constructor
  · rintro ⟨h, hne, hall⟩
    have hcp := classRecs_perm ctx hp h
    refine ⟨h, ?_, fun r hr => hall r (hcp.mem_iff.mpr hr)⟩
    intro h0
    rw [h0] at hcp
    exact hne hcp.eq_nil
  · rintro ⟨h, hne, hall⟩
    have hcp := classRecs_perm ctx hp h
    refine ⟨h, ?_, fun r hr => hall r (hcp.mem_iff.mp hr)⟩
    intro h0
    rw [h0] at hcp
    exact hne hcp.symm.eq_nil

theorem conflicted_mem_congr (ctx : SplitCtx) {records1 records2 : List FastaRec}
    (hp : records1.Perm records2) (h : Hash) :
    h ∈ conflictedHashes (pass1 ctx records1).groups ↔
      h ∈ conflictedHashes (pass1 ctx records2).groups := by
  have key : ∀ (a b : List FastaRec), a.Perm b →
      h ∈ conflictedHashes (pass1 ctx a).groups →
      h ∈ conflictedHashes (pass1 ctx b).groups := by
    intro a b hab hmem
    obtain ⟨g, hm, hc⟩ := (mem_conflictedHashes _ h).mp hmem
    have hlk : lookupA (pass1 ctx a).groups h = some g :=
      mem_lookupA_nodup _ (pass1_groups_keys_nodup ctx a) h g hm
    obtain ⟨hne, _, ⟨r0, hr0, hlab0⟩, hconf⟩ := (pass1_groups_char ctx a h).2 g hlk
    have hbad : ∃ r ∈ classRecs ctx a h, lookupA ctx.labels r.pid ≠ some g.label := by
      by_contra hq
      push_neg at hq
      have : g.conflict = false := hconf.mpr hq
      rw [hc] at this
      cases this
    obtain ⟨rb, hrb, hlabb⟩ := hbad
    have hcp := classRecs_perm ctx hab h
    cases hlk2 : lookupA (pass1 ctx b).groups h with
    | none =>
        exfalso
        have := (pass1_groups_char ctx b h).1 hlk2
        rw [this] at hcp
        exact hne hcp.eq_nil
    | some g2 =>
        obtain ⟨_, _, _, hconf2⟩ := (pass1_groups_char ctx b h).2 g2 hlk2
        have hc2 : g2.conflict = true := by
          cases hcb : g2.conflict with
          | true => rfl
          | false =>
              exfalso
              have hall2 := hconf2.mp hcb
              have h1 := hall2 r0 (hcp.mem_iff.mp hr0)
              have h2 := hall2 rb (hcp.mem_iff.mp hrb)
              rw [hlab0] at h1
              apply hlabb
              rw [h2, ← h1]
        exact (mem_conflictedHashes _ h).mpr ⟨g2, lookupA_some_mem _ _ _ hlk2, hc2⟩
  exact ⟨key records1 records2 hp, key records2 records1 hp.symm⟩

theorem assignUnits_key_mem (units : List BarcodeUnit) (targets : List (Str × Int))
    (e : Hash × Str) (he : e ∈ assignUnits units targets) :
    ∃ u ∈ units, e.1 = u.hash := by
  induction targets generalizing units with
  | nil =>
      simp [assignUnits] at he
  | cons bt rest ih =>
      obtain ⟨b, t⟩ := bt
      by_cases hemp : units = []
      · subst hemp
        rw [assignUnits_nil] at he
        cases he
      · by_cases hneg : t < 0
        · rw [assignUnits_neg _ _ _ _ hneg] at he
          obtain ⟨u, hu, he2⟩ := List.mem_map.mp he
          exact ⟨u, hu, by rw [← he2]⟩
        · rw [assignUnits_cons_eq _ _ _ _ hemp hneg] at he
          rcases List.mem_append.mp he with h1 | h1
          · obtain ⟨u, hu, he2⟩ := List.mem_map.mp h1
            have hu2 : u ∈ units := by
              rw [(takeByCount_spec units t).1]
              exact List.mem_append_left _ hu
            exact ⟨u, hu2, by rw [← he2]⟩
          · obtain ⟨u, hu, he2⟩ := ih _ h1
            have hu2 : u ∈ units := by
              rw [(takeByCount_spec units t).1]
              exact List.mem_append_right _ hu
            exact ⟨u, hu2, he2⟩

theorem planForLabel_key_mem (ctx : SplitCtx) (L : Str) (units : List BarcodeUnit)
    (total : Nat) (e : Hash × Str) (he : e ∈ planForLabel ctx L units total) :
    ∃ u ∈ units, e.1 = u.hash := by
  simp only [planForLabel] at he
  by_cases h1 : total ≥ 8 ∧ units.length ≥ 2
  · rw [if_pos h1] at he
    obtain ⟨u, hu, heq⟩ := assignUnits_key_mem _ _ _ he
    exact ⟨u, (List.perm_insertionSort unitLe units).mem_iff.mp hu, heq⟩
  · rw [if_neg h1] at he
    by_cases h2 : ctx.labelHash L < 128
    · rw [if_pos h2] at he
      obtain ⟨u, hu, heq⟩ := assignUnits_key_mem _ _ _ he
      exact ⟨u, (List.perm_insertionSort unitLe units).mem_iff.mp hu, heq⟩
    · rw [if_neg h2] at he
      obtain ⟨u, hu, heq⟩ := List.mem_map.mp he
      refine ⟨u, (List.perm_insertionSort unitLe units).mem_iff.mp hu, ?_⟩
      rw [← heq]

theorem lookupA_flatten_none (B : Str → List (Hash × Str)) :
    ∀ (labs : List Str) (h : Hash), (∀ L ∈ labs, lookupA (B L) h = none) →
      lookupA ((labs.map B).flatten) h = none := by
  intro labs
  induction labs with
  | nil =>
      intro h _
      rfl
  | cons L rest ih =>
      intro h hall
      simp only [List.map_cons, List.flatten_cons]
      rw [lookupA_append, hall L (List.mem_cons_self _ _)]
      exact ih h (fun L' hL' => hall L' (List.mem_cons_of_mem _ hL'))

theorem lookupA_flatten_some (B : Str → List (Hash × Str)) :
    ∀ (labs : List Str) (h : Hash) (L : Str) (v : Str),
      L ∈ labs → lookupA (B L) h = some v →
      (∀ L' ∈ labs, L' ≠ L → lookupA (B L') h = none) →
      lookupA ((labs.map B).flatten) h = some v := by
  intro labs
  induction labs with
  | nil =>
      intro h L v hL _ _
      cases hL
  | cons L0 rest ih =>
      intro h L v hL hv hothers
      simp only [List.map_cons, List.flatten_cons]
      rw [lookupA_append]
      by_cases hL0 : L0 = L
      · subst hL0
        rw [hv]
      · rw [hothers L0 (List.mem_cons_self _ _) hL0]
        have hLr : L ∈ rest := by
          rcases List.mem_cons.mp hL with h1 | h1
          · exact absurd h1.symm hL0
          · exact h1
        exact ih h L v hLr hv (fun L' hL' hne => hothers L' (List.mem_cons_of_mem _ hL') hne)

theorem buildSeqBucket_eq_flatten (ctx : SplitCtx) (groups : List (Hash × BarcodeGroup)) :
    buildSeqBucket ctx groups =
      ((labelsOf groups).map (fun L =>
        planForLabel ctx L (unitsFor groups L) (totalFor groups L))).flatten := by
  unfold buildSeqBucket
  rw [foldl_append_join]
  simp

theorem plan_block_key_class (ctx : SplitCtx) (records : List FastaRec) (L : Str) (h : Hash)
    (v : Str)
    (hv : lookupA (planForLabel ctx L (unitsFor (pass1 ctx records).groups L)
      (totalFor (pass1 ctx records).groups L)) h = some v) :
    classRecs ctx records h ≠ [] ∧
      ∀ r ∈ classRecs ctx records h, lookupA ctx.labels r.pid = some L := by
  have hmem := lookupA_some_mem _ _ _ hv
  obtain ⟨u, hu, heq⟩ := planForLabel_key_mem ctx L _ _ _ hmem
  have := (mem_unitsFor_iff ctx records L u).mp hu
  rw [← heq] at this
  exact ⟨this.1, this.2.1⟩

theorem lookup_seqBucket_congr (ctx : SplitCtx) {records1 records2 : List FastaRec}
    (hp : records1.Perm records2) (h : Hash) :
    lookupA (buildSeqBucket ctx (pass1 ctx records1).groups) h =
      lookupA (buildSeqBucket ctx (pass1 ctx records2).groups) h := by
  rw [buildSeqBucket_eq_flatten, buildSeqBucket_eq_flatten]
  have hmap2 : (labelsOf (pass1 ctx records2).groups).map
      (fun L => planForLabel ctx L (unitsFor (pass1 ctx records2).groups L)
        (totalFor (pass1 ctx records2).groups L)) =
      (labelsOf (pass1 ctx records2).groups).map
      (fun L => planForLabel ctx L (unitsFor (pass1 ctx records1).groups L)
        (totalFor (pass1 ctx records1).groups L)) :=
    List.map_congr_left (fun L _ => (planBlock_congr ctx hp L).symm)
  rw [hmap2]
  have huniq : ∀ L1 L2 v1 v2,
      lookupA (planForLabel ctx L1 (unitsFor (pass1 ctx records1).groups L1)
        (totalFor (pass1 ctx records1).groups L1)) h = some v1 →
      lookupA (planForLabel ctx L2 (unitsFor (pass1 ctx records1).groups L2)
        (totalFor (pass1 ctx records1).groups L2)) h = some v2 →
      L1 = L2 := by
    intro L1 L2 v1 v2 h1 h2
    obtain ⟨hne1, hall1⟩ := plan_block_key_class ctx records1 L1 h v1 h1
    obtain ⟨_, hall2⟩ := plan_block_key_class ctx records1 L2 h v2 h2
    obtain ⟨r0, hr0⟩ := List.exists_mem_of_ne_nil _ hne1
    have ha := hall1 r0 hr0
    have hb := hall2 r0 hr0
    rw [ha] at hb
    exact Option.some.inj hb
  by_cases hex : ∃ L ∈ labelsOf (pass1 ctx records1).groups, ∃ v,
      lookupA (planForLabel ctx L (unitsFor (pass1 ctx records1).groups L)
        (totalFor (pass1 ctx records1).groups L)) h = some v
  · obtain ⟨L, hL, v, hv⟩ := hex
    have hoth : ∀ L', L' ≠ L →
        lookupA (planForLabel ctx L' (unitsFor (pass1 ctx records1).groups L')
          (totalFor (pass1 ctx records1).groups L')) h = none := by
      intro L' hne
      cases hv2 : lookupA (planForLabel ctx L' (unitsFor (pass1 ctx records1).groups L')
          (totalFor (pass1 ctx records1).groups L')) h with
      | none => rfl
      | some v2 => exact absurd (huniq L' L v2 v hv2 hv) hne
    rw [lookupA_flatten_some _ _ h L v hL hv (fun L' _ hne => hoth L' hne),
      lookupA_flatten_some _ _ h L v ((mem_labelsOf_congr ctx hp L).mp hL) hv
        (fun L' _ hne => hoth L' hne)]
  · push_neg at hex
    have hnone : ∀ L,
        lookupA (planForLabel ctx L (unitsFor (pass1 ctx records1).groups L)
          (totalFor (pass1 ctx records1).groups L)) h = none := by
      intro L
      cases hv2 : lookupA (planForLabel ctx L (unitsFor (pass1 ctx records1).groups L)
          (totalFor (pass1 ctx records1).groups L)) h with
      | none => rfl
      | some v2 =>
          by_cases hL : L ∈ labelsOf (pass1 ctx records1).groups
          · exact absurd hv2 (hex L hL v2)
          · exfalso
            obtain ⟨hne1, hall1⟩ := plan_block_key_class ctx records1 L h v2 hv2
            exact hL ((mem_labelsOf_iff ctx records1 L).mpr ⟨h, hne1, hall1⟩)
    rw [lookupA_flatten_none _ _ h (fun L _ => hnone L),
      lookupA_flatten_none _ _ h (fun L _ => hnone L)]

theorem pass2Bucket_congr (ctx : SplitCtx) (p1 p2 : SplitPlanM) (r : FastaRec)
    (h1 : p1.invalidIDs.contains r.pid = p2.invalidIDs.contains r.pid)
    (h2 : p1.conflicted.contains (ctx.hashFn r.seq) =
      p2.conflicted.contains (ctx.hashFn r.seq))
    (h3 : lookupA p1.seqBucket (ctx.hashFn r.seq) = lookupA p2.seqBucket (ctx.hashFn r.seq)) :
    pass2Bucket ctx p1 r = pass2Bucket ctx p2 r := by
  unfold pass2Bucket
  rw [h1]
  by_cases hc1 : p2.invalidIDs.contains r.pid = true
  · rw [if_pos hc1, if_pos hc1]
  · rw [if_neg hc1, if_neg hc1]
    cases hlab : lookupA ctx.labels r.pid with
    | none => rfl
    | some L =>
        show (if p1.conflicted.contains (ctx.hashFn r.seq) = true then bucketPretrain
          else match lookupA p1.seqBucket (ctx.hashFn r.seq) with
            | some b => b
            | none => bucketPretrain) =
          (if p2.conflicted.contains (ctx.hashFn r.seq) = true then bucketPretrain
          else match lookupA p2.seqBucket (ctx.hashFn r.seq) with
            | some b => b
            | none => bucketPretrain)
        rw [h2, h3]

/-- C4: bucket assignments and the total_records statistic are invariant
under permuting the input records: the plan is a function of the record
multiset only, because groups are keyed and ordered by sequence-content
hash and the seen/unseen choice depends only on the label. Re-running the
partitioner on the same input is the identity permutation case. -/
theorem c4_order_independence (ctx : SplitCtx) (records1 records2 : List FastaRec)
    (hp : records1.Perm records2) :
    (∀ r, pass2Bucket ctx (buildSplitPlan ctx records1).1 r =
      pass2Bucket ctx (buildSplitPlan ctx records2).1 r) ∧
    (buildSplitPlan ctx records1).2 = (buildSplitPlan ctx records2).2 := by
  constructor
  · intro r
    refine pass2Bucket_congr ctx _ _ r ?_ ?_ ?_
    · apply contains_congr
      show r.pid ∈ (pass1 ctx records1).invalid ↔ r.pid ∈ (pass1 ctx records2).invalid
      rw [pass1_invalid_mem, pass1_invalid_mem]
      constructor
      · rintro (h | ⟨r2, hr2, he⟩)
        · exact Or.inl h
        · exact Or.inr ⟨r2, hp.mem_iff.mp hr2, he⟩
      · rintro (h | ⟨r2, hr2, he⟩)
        · exact Or.inl h
        · exact Or.inr ⟨r2, hp.mem_iff.mpr hr2, he⟩
    · apply contains_congr
      exact conflicted_mem_congr ctx hp (ctx.hashFn r.seq)
    · exact lookup_seqBucket_congr ctx hp (ctx.hashFn r.seq)
  · show (pass1 ctx records1).totalRecords = (pass1 ctx records2).totalRecords
    rw [pass1_total, pass1_total, hp.length_eq]

theorem c4_order_independence_witness :
    let ctx : SplitCtx :=
      { hashFn := fun s => s.length, labelHash := fun _ => 0,
        labels := [( "P1".toList, "L1".toList), ( "P2".toList, "L1".toList)],
        invalid0 := [] }
    (∀ r, pass2Bucket ctx (buildSplitPlan ctx
        [⟨ "P1".toList, "AAA".toList⟩, ⟨ "P2".toList, "AAAA".toList⟩]).1 r =
      pass2Bucket ctx (buildSplitPlan ctx
        [⟨ "P2".toList, "AAAA".toList⟩, ⟨ "P1".toList, "AAA".toList⟩]).1 r) ∧
    (buildSplitPlan ctx
        [⟨ "P1".toList, "AAA".toList⟩, ⟨ "P2".toList, "AAAA".toList⟩]).2 =
      (buildSplitPlan ctx
        [⟨ "P2".toList, "AAAA".toList⟩, ⟨ "P1".toList, "AAA".toList⟩]).2 := by
  intro ctx
  exact c4_order_independence ctx
    [⟨ "P1".toList, "AAA".toList⟩, ⟨ "P2".toList, "AAAA".toList⟩]
    [⟨ "P2".toList, "AAAA".toList⟩, ⟨ "P1".toList, "AAA".toList⟩]
    (List.Perm.swap _ _ _)

end Boldkit
